import Mathlib

/-!
# Verification of the OWL-to-KM translation-and-publishing pipeline

Shallow embedding of the core of the `py-knowledge-machine` repository:
resource/predicate naming (`km_syntax.py` / `service/KMSyntaxService.py`),
KRL expression generation (`class_to_km`, `individual_to_km`), reference
extraction (`get_referenced_assertions`), and the round-based publish
schedulers (`main.py` `OWLGraphProcessor`, `processor/owl/OWLGraphProcessor.py`,
and the recursive `process_assertion` of `owl_to_km.py` together with
`KMService.send_to_km`).

Conventions of the embedding:
* an rdflib graph is a finite list of triples in store-report order; URIs are
  strings, objects are either `Node.uri` (rdflib `URIRef`) or `Node.lit`
  (rdflib `Literal`);
* Python dicts are association lists in insertion order; assignment replaces
  the value at the existing position or appends a fresh entry at the end;
* a Python value that may be `None` is an `Option`; Python string formatting
  of `None` yields `"None"`;
* code that can raise (`IndexError` on `label[0]`, `TypeError` on
  `' '.join` over `None`, the recursive `process_assertion(ref, dry_run)`
  call that is missing two positional arguments) returns `Except String`;
* Python `set` deduplication is modelled by keep-first-occurrence
  deduplication (`firstOccurrences`); set iteration order is unspecified in
  Python, all set-valued claims below are order-insensitive.
-/

namespace OwlToKm

/-- An rdflib term in object position: a `URIRef` or a `Literal`
(its string value). -/
inductive Node where
  | uri (u : String)
  | lit (s : String)
deriving DecidableEq, Repr

/-- One rdf triple `(subject, predicate, object)`; subjects and predicates of
the translated ontologies are `URIRef`s, kept as their URI strings. -/
structure Triple where
  subj : String
  pred : String
  obj : Node
deriving DecidableEq, Repr

/-- An rdflib graph: the triples in the order the store reports them. -/
abbrev Graph := List Triple

/-- `graph.subjects()`: one subject per triple, duplicates included. -/
def subjectsOf (g : Graph) : List String := g.map (·.subj)

/-- `graph.predicates()`: one predicate per triple, duplicates included. -/
def predicatesOf (g : Graph) : List String := g.map (·.pred)

/-- `graph.predicate_objects(s)`: the `(predicate, object)` pairs of the
triples whose subject is `s`, in store order. -/
def predicateObjects (g : Graph) (s : String) : List (String × Node) :=
  (g.filter (fun t => t.subj = s)).map (fun t => (t.pred, t.obj))

/-- `graph.objects(s, p)`: the objects of the triples with subject `s` and
predicate `p`, in store order. -/
def objectsOf (g : Graph) (s p : String) : List Node :=
  (g.filter (fun t => t.subj = s && t.pred = p)).map (·.obj)

/-- `(s, p, o) in graph` membership test. -/
def tripleMem (g : Graph) (s p : String) (o : Node) : Bool :=
  g.any (fun t => t.subj = s && t.pred = p && t.obj = o)

/-! ## Python dict as an insertion-ordered association list -/

/-- `d[k]` lookup (first — and by construction only — entry with key `k`). -/
def dget {α β : Type} [DecidableEq α] : List (α × β) → α → Option β
  | [], _ => none
  | e :: es, k => if e.1 = k then some e.2 else dget es k

/-- `d[k] = v` assignment: replace the value at the existing position of `k`,
else append a fresh entry at the end (CPython dict semantics). -/
def dset {α β : Type} [DecidableEq α] (d : List (α × β)) (k : α) (v : β) :
    List (α × β) :=
  match d with
  | [] => [(k, v)]
  | e :: es => if e.1 = k then (k, v) :: es else e :: dset es k v

/-- `d.setdefault(k, []).append(v)`: append `v` to the list stored at `k`,
creating the entry at the end if `k` is absent. -/
def dappend {α β : Type} [DecidableEq α] (d : List (α × List β)) (k : α)
    (v : β) : List (α × List β) :=
  match d with
  | [] => [(k, [v])]
  | e :: es => if e.1 = k then (e.1, e.2 ++ [v]) :: es else e :: dappend es k v

/-- Keep-first-occurrence deduplication (auxiliary: `seen` accumulator). -/
def firstOccurrencesAux {α : Type} [DecidableEq α] : List α → List α → List α
  | [], _ => []
  | x :: xs, seen =>
    if x ∈ seen then firstOccurrencesAux xs seen
    else x :: firstOccurrencesAux xs (x :: seen)

/-- Keep-first-occurrence deduplication: `list(dict.fromkeys(xs))`, and our
order-fixing model of Python `set` iteration. -/
def firstOccurrences {α : Type} [DecidableEq α] (l : List α) : List α :=
  firstOccurrencesAux l []

/-! ## Naming layer (`km_syntax.py`, `service/KMSyntaxService.py`) -/

/-- `str.split('/')` on character lists (Python `split` with a separator
keeps empty fields and always returns at least one field). -/
def splitSlashAux : List Char → List Char → List (List Char)
  | [], acc => [acc.reverse]
  | c :: cs, acc =>
    if c = '/' then acc.reverse :: splitSlashAux cs []
    else splitSlashAux cs (c :: acc)

/-- `utils.rdf_to_krl_name`: `str(uri).split('/')[-1]`. -/
def rdf_to_krl_name (uri : String) : String :=
  ⟨(splitSlashAux uri.data []).getLastD []⟩

/-- `cyc_annot_label` of `km_syntax.py` (the same URI as
`service/OpenCycService.py`'s `cyc_annot_label`). -/
def cycAnnotLabelURI : String := "http://sw.cyc.com/CycAnnotations_v1#label"

def rdfTypeURI : String := "http://www.w3.org/1999/02/22-rdf-syntax-ns#type"

def rdfsSubClassOfURI : String := "http://www.w3.org/2000/01/rdf-schema#subClassOf"

def rdfsLabelURI : String := "http://www.w3.org/2000/01/rdf-schema#label"

def rdfsCommentURI : String := "http://www.w3.org/2000/01/rdf-schema#comment"

def rdfsSubPropertyOfURI : String := "http://www.w3.org/2000/01/rdf-schema#subPropertyOf"

def rdfsDomainURI : String := "http://www.w3.org/2000/01/rdf-schema#domain"

def rdfsRangeURI : String := "http://www.w3.org/2000/01/rdf-schema#range"

def owlSameAsURI : String := "http://www.w3.org/2002/07/owl#sameAs"

def owlDisjointWithURI : String := "http://www.w3.org/2002/07/owl#disjointWith"

def owlInverseOfURI : String := "http://www.w3.org/2002/07/owl#inverseOf"

def owlClassURI : String := "http://www.w3.org/2002/07/owl#Class"

def owlObjectPropertyURI : String := "http://www.w3.org/2002/07/owl#ObjectProperty"

def cycQuotedIsaURI : String :=
  "http://sw.opencyc.org/2008/06/10/concept/Mx4rBVVEokNxEdaAAACgydogAg"

/-- The external label/id map (`extract_labels_and_ids`): subject URI ↦ the
`'label'` value, which Python may set to `None` (an entry whose subject only
carried an `owl:sameAs`). The `'label'` key itself is always present on an
entry, so the source's `s in object_map and 'label' in object_map[s]` test is
entry existence. -/
abbrev ObjectMap := List (String × Option String)

/-- Python `f"{x}"` of a string-or-`None` value. -/
def pyFormat : Option String → String
  | some s => s
  | none => "None"

/-- The label scan of `build_resource_names`:
`next((l for l in labels if l[0].isupper()), labels[0])`.
The generator evaluates `l[0]` on each candidate in turn, so an **empty**
literal reached before any uppercase-initial one raises `IndexError`; if the
generator is exhausted the default `labels[0]` is returned. -/
def chooseAnnotLabel (all : List String) : List String → Except String String
  | [] => .ok (all.headD "")
  | l :: ls =>
    match l.data with
    | [] => .error "IndexError: string index out of range"
    | c :: _ => if c.isUpper then .ok l else chooseAnnotLabel all ls

/-- The literal objects of `(s, cyc_annot_label)`, as strings. -/
def annotLabels (g : Graph) (s : String) : List String :=
  (objectsOf g s cycAnnotLabelURI).filterMap
    (fun o => match o with | .lit v => some v | .uri _ => none)

/-- Name resolution for one subject (the loop body of
`build_resource_names`): external map label if the entry exists (possibly the
Python `None` label), else the annotation-label scan, else the URI tail. -/
def resolveResourceName (g : Graph) (m : ObjectMap) (s : String) :
    Except String (Option String) :=
  match dget m s with
  | some lbl => .ok lbl
  | none =>
    match annotLabels g s with
    | [] => .ok (some (rdf_to_krl_name s))
    | l :: ls => (chooseAnnotLabel (l :: ls) (l :: ls)).map some

/-- `KMSyntaxGenerator.build_resource_names`: one pass over
`graph.subjects()` (duplicates included), assigning each subject its resolved
name; the first raising subject aborts. -/
def build_resource_names (g : Graph) (m : ObjectMap) :
    Except String (List (String × Option String)) :=
  (subjectsOf g).foldlM
    (fun tbl s => do
      let nm ← resolveResourceName g m s
      pure (dset tbl s nm))
    []

/-- `get_resource_name`: `self.resource_names.get(resource, rdf_to_krl_name(resource))`.
A stored Python `None` is returned as `none`. -/
def get_resource_name (tbl : List (String × Option String)) (r : String) :
    Option String :=
  match dget tbl r with
  | some v => v
  | none => some (rdf_to_krl_name r)

/-! ## Decimal rendering of an integer (Python `f"{base}_{i}"`) -/

/-- Little-endian base-10 digits with structural fuel (so that the kernel can
evaluate it); agrees with `Nat.digits 10`. -/
def digitsAuxF : Nat → Nat → List Nat
  | 0, _ => []
  | _ + 1, 0 => []
  | fuel + 1, n + 1 => (n + 1) % 10 :: digitsAuxF fuel ((n + 1) / 10)

def natDigits (n : Nat) : List Nat := digitsAuxF n n

/-- Python `str(i)` for a natural number: decimal, no leading zeros. -/
def natRepr (n : Nat) : String :=
  if n = 0 then "0" else ⟨(natDigits n).reverse.map Nat.digitChar⟩

/-! ## Predicate naming (`build_predicate_names`) -/

/-- A key of the `STANDARD_PREDICATES` dict: rdflib `URIRef` keys and the
plain-string OpenCyc concept ids of `service/KMService.py` are distinct
Python dict keys even when their text agrees (rdflib term equality is
type-strict), so they are kept apart. -/
inductive PKey where
  | uriK (u : String)
  | rawK (s : String)
deriving DecidableEq, Repr

/-- `STANDARD_PREDICATES` of `km_syntax.py`. -/
def stdPredicatesKm : List (PKey × Option String) :=
  [(.uriK rdfTypeURI, some "instance-of"),
   (.uriK rdfsSubClassOfURI, some "superclasses"),
   (.uriK rdfsLabelURI, some "label"),
   (.uriK owlSameAsURI, some "same_as")]

/-- `STANDARD_PREDICATES` of `service/KMService.py` (the table the service
variants use; note the two entries whose value is `"prettyString"`). -/
def stdPredicatesSvc : List (PKey × Option String) :=
  [(.uriK rdfTypeURI, some "instance-of"),
   (.uriK rdfsSubClassOfURI, some "superclasses"),
   (.uriK rdfsLabelURI, some "prettyString"),
   (.uriK owlSameAsURI, some "same-as"),
   (.uriK owlDisjointWithURI, some "mustnt-be-a"),
   (.uriK rdfsCommentURI, some "comment"),
   (.uriK rdfsSubPropertyOfURI, some "subPropertyOf"),
   (.rawK "Mx4rvViAzpwpEbGdrcN5Y29ycA", some "datatype"),
   (.rawK "Mx4rBVVEokNxEdaAAACgydogAg", some "Quoted Isa"),
   (.rawK "Mx4rwLSVCpwpEbGdrcN5Y29ycA", some "prettyString"),
   (.rawK "Mx4r8POVIYRHEdmd8gACs6hbCw", some "prettyString-Canonical")]

/-- `TYPE_PREDICATES` (`km_syntax.py` / `service/OpenCycService.py`). -/
def typePredicates : List PKey := [.uriK rdfTypeURI, .uriK cycQuotedIsaURI]

/-- The `i`-th candidate name tried by the collision loop of
`build_predicate_names`: the base itself, then `f"{base_name}_{i}"`. -/
def candidateName (base : Option String) : Nat → Option String
  | 0 => base
  | i + 1 => some (pyFormat base ++ "_" ++ natRepr (i + 1))

/-- The `while name in used_names` loop, with fuel (the Python loop always
terminates because the candidates are pairwise distinct and `used_names` is
finite; `freshName` supplies enough fuel for that argument). -/
def freshNameAux (base : Option String) (used : List (Option String)) :
    Nat → Nat → Option String
  | 0, i => candidateName base i
  | fuel + 1, i =>
    if candidateName base i ∈ used then freshNameAux base used fuel (i + 1)
    else candidateName base i

def freshName (base : Option String) (used : List (Option String)) :
    Option String :=
  freshNameAux base used (used.length + 1) 0

/-- The body of the `for pred in self.graph.predicates()` loop of
`build_predicate_names`: map a type predicate to `"instance-of"`
unconditionally, skip a predicate already named, and give every other
predicate its base name (external map label — possibly Python `None` — else
URI tail) made unique against `used_names` by `_1`, `_2`, … suffixes. -/
def predNameStep (m : ObjectMap)
    (acc : List (PKey × Option String) × List (Option String)) (p : String) :
    List (PKey × Option String) × List (Option String) :=
  let names := acc.1
  let used := acc.2
  if PKey.uriK p ∈ typePredicates then
    (dset names (.uriK p) (some "instance-of"), used)
  else if (dget names (.uriK p)).isSome then acc
  else
    let base : Option String :=
      match dget m p with
      | some lbl => lbl
      | none => some (rdf_to_krl_name p)
    let nm := freshName base used
    (dset names (.uriK p) nm, used ++ [nm])

/-- `KMSyntaxGenerator.build_predicate_names`, parameterised by the
`STANDARD_PREDICATES` table in scope (`km_syntax.py` vs the service files):
seed `names` with the standard table and `used_names` with its values, then
run the loop body over the graph's predicates. -/
def buildPredicateNamesFrom (std : List (PKey × Option String))
    (m : ObjectMap) (preds : List String) : List (PKey × Option String) :=
  (preds.foldl (predNameStep m) (std, std.map (·.2))).1

/-- `build_predicate_names` as run by `km_syntax.py` over
`graph.predicates()`. -/
def build_predicate_names (g : Graph) (m : ObjectMap) :
    List (PKey × Option String) :=
  buildPredicateNamesFrom stdPredicatesKm m (predicatesOf g)

/-- `build_predicate_names` as run by the service variants (seeded with
`service/KMService.py`'s table). -/
def build_predicate_names_svc (g : Graph) (m : ObjectMap) :
    List (PKey × Option String) :=
  buildPredicateNamesFrom stdPredicatesSvc m (predicatesOf g)

/-- `get_slot_name`: `self.predicate_names.get(predicate, rdf_to_krl_name(predicate))`. -/
def get_slot_name (ptbl : List (PKey × Option String)) (p : String) :
    Option String :=
  match dget ptbl (.uriK p) with
  | some v => v
  | none => some (rdf_to_krl_name p)

/-! ## Expression generation (`class_to_km`, `individual_to_km`) -/

/-- One `\uXXXX` escape (lowercase hex, as `json.dumps` emits). -/
def uHex (n : Nat) : List Char :=
  ['\\', 'u', Nat.digitChar (n / 4096 % 16), Nat.digitChar (n / 256 % 16),
   Nat.digitChar (n / 16 % 16), Nat.digitChar (n % 16)]

/-- `json.dumps` escaping of one character (default `ensure_ascii=True`). -/
def jsonEscapeChar (c : Char) : List Char :=
  if c = '"' then ['\\', '"']
  else if c = '\\' then ['\\', '\\']
  else if c = '\x08' then ['\\', 'b']
  else if c = '\x0c' then ['\\', 'f']
  else if c = '\n' then ['\\', 'n']
  else if c = '\r' then ['\\', 'r']
  else if c = '\t' then ['\\', 't']
  else if c.toNat < 0x20 then uHex c.toNat
  else if c.toNat < 0x7f then [c]
  else if c.toNat < 0x10000 then uHex c.toNat
  else uHex (0xd800 + (c.toNat - 0x10000) / 1024) ++
       uHex (0xdc00 + (c.toNat - 0x10000) % 1024)

/-- `json.dumps(str(obj))`: the literal as a quoted JSON string. -/
def jsonDumps (s : String) : String :=
  ⟨'"' :: s.data.flatMap jsonEscapeChar ++ ['"']⟩

/-- The `(slot name, value)` pair of one `(predicate, object)` of the frame
subject: `get_slot_name(pred)` and `get_resource_name(obj)` for a `URIRef`
object, else `json.dumps(str(obj))`. -/
def slotPairs (g : Graph) (rtbl : List (String × Option String))
    (ptbl : List (PKey × Option String)) (r : String) :
    List (Option String × Option String) :=
  (predicateObjects g r).map
    (fun po =>
      (get_slot_name ptbl po.1,
       match po.2 with
       | .uri u => get_resource_name rtbl u
       | .lit s => some (jsonDumps s)))

/-- The `slots` dict: `slots.setdefault(name, []).append(value)` over the
subject's `(predicate, object)` pairs in store order. -/
def slotsOf (pairs : List (Option String × Option String)) :
    List (Option String × List (Option String)) :=
  pairs.foldl (fun d pv => dappend d pv.1 pv.2) []

/-- `' '.join(values)`: raises `TypeError` if any value is the Python `None`
produced by a `None` entry of the name table. -/
def joinValues (vs : List (Option String)) : Except String String :=
  if vs.all (·.isSome) then
    .ok (" ".intercalate (vs.map pyFormat))
  else .error "TypeError: sequence item: expected str instance, NoneType found"

/-- One `" (slot (v₁ … vₙ))"` clause. -/
def renderClause (slot : Option String) (vs : List (Option String)) :
    Except String String := do
  let joined ← joinValues vs
  pure (" (" ++ pyFormat slot ++ " (" ++ joined ++ "))")

/-- Frame rendering shared by `class_to_km` and `individual_to_km` of
`km_syntax.py`: `(name has` + one clause per `slots` entry + `)`. -/
def renderFrame (name : Option String)
    (slots : List (Option String × List (Option String))) :
    Except String String := do
  let clauses ← slots.mapM (fun sv => renderClause sv.1 sv.2)
  pure ("(" ++ pyFormat name ++ " has" ++ String.join clauses ++ ")")

/-- `KMSyntaxGenerator.class_to_km` of `km_syntax.py`: one clause per
distinct slot of the subject, values in store order, no deduplication, no
suppression of any value. -/
def class_to_km (g : Graph) (rtbl : List (String × Option String))
    (ptbl : List (PKey × Option String)) (r : String) : Except String String :=
  renderFrame (get_resource_name rtbl r) (slotsOf (slotPairs g rtbl ptbl r))

/-- `KMSyntaxGenerator.individual_to_km` (`km_syntax.py` and the service
files agree): as `class_to_km` but `unique_values = list(dict.fromkeys(values))`
per slot. -/
def individual_to_km (g : Graph) (rtbl : List (String × Option String))
    (ptbl : List (PKey × Option String)) (r : String) : Except String String :=
  renderFrame (get_resource_name rtbl r)
    ((slotsOf (slotPairs g rtbl ptbl r)).map
      (fun sv => (sv.1, firstOccurrences sv.2)))

/-- `slot in STANDARD_PREDICATES` / `STANDARD_PREDICATES[slot]` where `slot`
is an already-resolved name (a Python `str` or `None`): rdflib `URIRef` keys
never compare equal to a plain string, so only the raw-string keys of the
service table can match. -/
def svcSlotOverride (std : List (PKey × Option String)) (slot : Option String) :
    Option (Option String) :=
  match std.find? (fun e =>
    match e.1 with
    | .rawK s => slot = some s
    | .uriK _ => false) with
  | some e => some e.2
  | none => none

/-- The inner rendering loop of `KMSyntaxService.class_to_km`
(`service/KMSyntaxService.py` lines 99–108): one clause **per value** of the
slot, skipping the clause when the value is `"owl#Class"`, rebinding `slot`
through `STANDARD_PREDICATES` (the rebinding persists for later values), and
joining the **entire** value list into every emitted clause. -/
def svcClauses (std : List (PKey × Option String)) (slot : Option String)
    (values : List (Option String)) : Except String String := do
  let final ← values.foldlM
    (fun (acc : Option String × String) v =>
      if v = some "owl#Class" then pure acc
      else do
        let slot' := match svcSlotOverride std acc.1 with
          | some repl => repl
          | none => acc.1
        let joined ← joinValues values
        pure (slot', acc.2 ++ " (" ++ pyFormat slot' ++ " (" ++ joined ++ "))"))
    (slot, "")
  pure final.2

/-- `KMSyntaxService.class_to_km` (the variant of
`service/KMSyntaxService.py` / `service/KMService.py`). -/
def class_to_km_svc (g : Graph) (rtbl : List (String × Option String))
    (ptbl : List (PKey × Option String)) (r : String) : Except String String := do
  let body ← (slotsOf (slotPairs g rtbl ptbl r)).foldlM
    (fun acc sv => do
      let cl ← svcClauses stdPredicatesSvc sv.1 sv.2
      pure (acc ++ cl))
    ""
  pure ("(" ++ pyFormat (get_resource_name rtbl r) ++ " has" ++ body ++ ")")

/-! ### Specification-side generators (for the refinement claims) -/

/-- First-seen key order of a pair list. -/
def firstKeys (pairs : List (Option String × Option String)) :
    List (Option String) :=
  firstOccurrences (pairs.map (·.1))

/-- Modelled from the spec: grouping "one slot clause per distinct predicate
that has R as subject", each clause carrying that slot's values "in the order
the store reports them, without deduplication". Built by grouping
(first-seen key order, values by filtering), deliberately *not* by the
source's `setdefault` fold. -/
def specGroupSlots (pairs : List (Option String × Option String)) :
    List (Option String × List (Option String)) :=
  (firstKeys pairs).map
    (fun k => (k, (pairs.filter (fun pv => pv.1 = k)).map (·.2)))

/-- Modelled from the spec: the Class contract of §4.2 *without* the
type-marker suppression sentence (the amended C7). -/
def specClassToKmNoSuppress (g : Graph) (rtbl : List (String × Option String))
    (ptbl : List (PKey × Option String)) (r : String) : Except String String :=
  renderFrame (get_resource_name rtbl r) (specGroupSlots (slotPairs g rtbl ptbl r))

/-- Modelled from the spec: the Class contract of §4.2 exactly as the claim
states it — one clause per distinct predicate, values in store order without
deduplication, and a value equal to the built-in `owl:Class` marker
suppressed, "contributing nothing to the output" (a clause all of whose
values are suppressed disappears). -/
def specClassToKmClaim (g : Graph) (rtbl : List (String × Option String))
    (ptbl : List (PKey × Option String)) (r : String) : Except String String :=
  renderFrame (get_resource_name rtbl r)
    (((specGroupSlots (slotPairs g rtbl ptbl r)).map
        (fun sv => (sv.1, sv.2.filter (fun v => v ≠ some "owl#Class")))).filter
      (fun sv => !sv.2.isEmpty))

/-- Modelled from the spec: the Individual contract of §4.2 — "exactly as for
Class but with duplicate value suppression per slot (first occurrence
kept)". -/
def specIndividualToKm (g : Graph) (rtbl : List (String × Option String))
    (ptbl : List (PKey × Option String)) (r : String) : Except String String :=
  renderFrame (get_resource_name rtbl r)
    ((specGroupSlots (slotPairs g rtbl ptbl r)).map
      (fun sv => (sv.1, firstOccurrences sv.2)))

/-! ## Reference extraction (`get_referenced_assertions`) -/

/-- `BUILT_IN_FRAMES` (identical in `km_syntax.py` and
`service/KMService.py`). -/
def builtInFrames : List String :=
  ["instance-of", "superclasses", "label", "Slot", "Class", "Thing", "has",
   "with", "a", "in", "where", "then", "else", "if", "forall", "oneof",
   "a-prototype"]

/-- A character matched by the token regex `[-\w]+` (ASCII word characters
and the hyphen; the translated names are ASCII). -/
def isSymChar (c : Char) : Bool :=
  c.isAlphanum || c = '_' || c = '-'

/-- `re.sub(r'"[^"]*"', '', s)` as a left-to-right scan.  The state is
`none` outside any quoted span and `some buf` after an opening quote whose
partner has not yet been seen, `buf` holding (reversed) the opening quote
and the span's content so far.  A closed span is deleted; a quote with no
closing partner is kept along with everything after it, exactly as the
regex — which cannot match at or beyond the unpaired quote — leaves it. -/
def removeQuotedAux : List Char → Option (List Char) → List Char
  | [], none => []
  | [], some buf => buf.reverse
  | c :: cs, none =>
    if c = '"' then removeQuotedAux cs (some [c])
    else c :: removeQuotedAux cs none
  | c :: cs, some buf =>
    if c = '"' then removeQuotedAux cs none
    else removeQuotedAux cs (some (c :: buf))

def removeQuoted (l : List Char) : List Char :=
  removeQuotedAux l none

/-- `re.findall(r'[-\w]+', s)`: maximal runs of symbol characters
(auxiliary: the reversed run in progress). -/
def tokenizeAux : List Char → List Char → List String
  | [], acc => if acc.isEmpty then [] else [⟨acc.reverse⟩]
  | c :: cs, acc =>
    if isSymChar c then tokenizeAux cs (c :: acc)
    else if acc.isEmpty then tokenizeAux cs []
    else ⟨acc.reverse⟩ :: tokenizeAux cs []

/-- `re.findall(r'[-\w]+', s)`: maximal runs of symbol characters. -/
def tokenize (l : List Char) : List String :=
  tokenizeAux l []

/-- `{name: u for u, name in self.resource_names.items()}`: the reverse name
table; a duplicated name is overwritten by the later resource. -/
def reverseNames (rtbl : List (String × Option String)) :
    List (Option String × String) :=
  rtbl.foldl (fun acc e => dset acc e.2 e.1) []

/-- `get_uri_type` (`service/KMSyntaxService.py` lines 160–169). -/
def get_uri_type (g : Graph) (u : String) : String :=
  if tripleMem g u rdfTypeURI (.uri owlClassURI) then "class"
  else if tripleMem g u rdfTypeURI (.uri owlObjectPropertyURI) then "property"
  else if (objectsOf g u rdfTypeURI).any
      (fun t => match t with
        | .uri tu => tripleMem g tu rdfTypeURI (.uri owlClassURI)
        | .lit _ => false) then "individual"
  else ""

/-- The translation unit: `("class", uri)`, `("property", uri)`,
`("individual", (ind_uri, class_uri))`. -/
inductive ARef where
  | cls (u : String)
  | prop (u : String)
  | ind (u : String) (c : String)
deriving DecidableEq, Repr

/-- The classes of a multiply-typed individual:
`[o for s, o in graph.subject_objects(RDF.type) if s == ref_uri and (o, RDF.type, OWL.Class) in graph]`. -/
def classesOfIndividual (g : Graph) (u : String) : List String :=
  g.filterMap
    (fun t =>
      if t.subj = u ∧ t.pred = rdfTypeURI then
        match t.obj with
        | .uri o => if tripleMem g o rdfTypeURI (.uri owlClassURI) then some o else none
        | .lit _ => none
      else none)

/-- `KMSyntaxGenerator.get_referenced_assertions`
(`service/KMSyntaxService.py` lines 136–158): strip quoted spans, tokenize,
drop built-in keywords, deduplicate (Python `set`, modelled in first-seen
order), reverse-resolve each surviving token through the resource-name
table (unresolvable tokens silently dropped) and classify each resolved
resource. The subject token of the expression is **not** excluded. -/
def get_referenced_assertions (g : Graph)
    (rtbl : List (String × Option String)) (assertion : String) : List ARef :=
  let cleaned := removeQuoted assertion.data
  let symbols := tokenize cleaned
  let referencedFrames := firstOccurrences
    (symbols.filter (fun sym => sym ∉ builtInFrames))
  let nameToUri := reverseNames rtbl
  let referencedUris := referencedFrames.filterMap
    (fun frameName => dget nameToUri (some frameName))
  referencedUris.flatMap
    (fun refUri =>
      match get_uri_type g refUri with
      | "class" => [ARef.cls refUri]
      | "property" => [ARef.prop refUri]
      | "individual" => (classesOfIndividual g refUri).map (ARef.ind refUri)
      | _ => [])

/-! ## The round-based scheduler of `main.py` (`OWLGraphProcessor`)

`run` repeatedly takes the assertions whose dependencies are all keys of
`successfully_sent` (a snapshot read before the pool dispatch), maps the
worker over them (each success stores the generated expression under its
assertion), and removes every dispatched assertion — successful or not —
from the remaining list; it stops when no assertion is ready.  The
dependency map (`compute_dependencies`) and the per-assertion publish
outcome (`send_to_km`'s success field) are parameters `deps` and `pub`; the
generated expression is `gen`. -/

/-- `OWLGraphProcessor.get_ready_assertions` (`main.py` lines 77–83). -/
def get_ready_assertions (deps : ARef → List ARef)
    (sent : List (ARef × String)) (assertions : List ARef) : List ARef :=
  assertions.filter (fun a => (deps a).all (fun d => (dget sent d).isSome))

/-- `OWLGraphProcessor.process_assertion` (`main.py` lines 85–103) as seen by
one worker: generate, publish, record the expression on success. -/
def process_assertion_main (gen : ARef → String) (pub : ARef → Bool)
    (sent : List (ARef × String)) (a : ARef) : Bool × List (ARef × String) :=
  if pub a then (true, dset sent a (gen a)) else (false, sent)

/-- One pool batch: fold the workers' registry writes over the ready list. -/
def dispatchRound (gen : ARef → String) (pub : ARef → Bool)
    (sent : List (ARef × String)) (ready : List ARef) : List (ARef × String) :=
  ready.foldl (fun s a => (process_assertion_main gen pub s a).2) sent

/-- One scheduler round as recorded for the ordering claim. -/
structure Round where
  dispatched : List ARef
  succeeded : List ARef
deriving DecidableEq, Repr

/-- `OWLGraphProcessor.run` (`main.py` lines 105–115): the `while True` loop,
returning the recorded rounds, the final registry and the assertions still
unprocessed when the loop broke.  The fuel mirrors the loop's own
termination argument: a round with a non-empty ready set removes at least
one assertion, so `assertions.length + 1` iterations always reach the
`break`. -/
def mainRunAux (deps : ARef → List ARef) (gen : ARef → String)
    (pub : ARef → Bool) :
    Nat → List ARef → List (ARef × String) →
    List Round × List (ARef × String) × List ARef
  | 0, assertions, sent => ([], sent, assertions)
  | fuel + 1, assertions, sent =>
    let ready := get_ready_assertions deps sent assertions
    if ready.isEmpty then ([], sent, assertions)
    else
      let sent' := dispatchRound gen pub sent ready
      let rest := mainRunAux deps gen pub fuel
        (assertions.filter (fun a => a ∉ ready)) sent'
      (⟨ready, ready.filter pub⟩ :: rest.1, rest.2)

/-- The scheduler as started by `main()`: empty registry, enough fuel. -/
def mainRun (deps : ARef → List ARef) (gen : ARef → String)
    (pub : ARef → Bool) (assertions : List ARef) :
    List Round × List (ARef × String) × List ARef :=
  mainRunAux deps gen pub (assertions.length + 1) assertions []

/-! ## The round loop of `processor/owl/OWLGraphProcessor.py` (lines 20–47) -/

/-- `self.successfully_sent`, set to `[]` in `__init__` and never written by
the class. -/
def owlSuccessfullySent : List ARef := []

/-- The body of the `while` loop: map the pool's per-assertion outcome over
`remaining`; a failed assertion is kept and recorded once as
`"unknown_failure"`; a successful assertion counts as progress only when it
is in `successfully_sent` (the empty list, so never). -/
def owlProcStep (succ : ARef → Bool) (remaining : List ARef)
    (failed : List (ARef × String)) :
    List ARef × List (ARef × String) × Bool :=
  remaining.foldl
    (fun (acc : List ARef × List (ARef × String) × Bool) a =>
      if succ a then
        (acc.1, acc.2.1, acc.2.2 || decide (a ∈ owlSuccessfullySent))
      else
        (acc.1 ++ [a],
         (if (dget acc.2.1 a).isSome then acc.2.1
          else dset acc.2.1 a "unknown_failure"),
         acc.2.2))
    ([], failed, false)

/-- The `while remaining_assertions and progress_made` loop, with enough fuel
for its Python termination argument. -/
def owlProcLoop (succ : ARef → Bool) :
    Nat → List ARef → List (ARef × String) → List ARef × List (ARef × String)
  | 0, remaining, failed => (remaining, failed)
  | fuel + 1, remaining, failed =>
    if remaining.isEmpty then (remaining, failed)
    else
      let step := owlProcStep succ remaining failed
      if step.2.2 then owlProcLoop succ fuel step.1 step.2.1
      else (step.1, step.2.1)

/-- `OWLGraphProcessor.run` of `processor/owl/OWLGraphProcessor.py`,
returning the remaining (unprocessed) assertions and the
`failed_assertions` reasons dict. -/
def owlProcRun (succ : ARef → Bool) (assertionList : List ARef) :
    List ARef × List (ARef × String) :=
  owlProcLoop succ (assertionList.length + 1) assertionList []

/-! ## `KMService.send_to_km` and `owl_to_km.process_assertion` -/

/-- The result dict of `send_to_km`. -/
structure KMResult where
  success : Bool
  detail : String
deriving DecidableEq, Repr

/-- `KMService.send_to_km` (`service/KMService.py` lines 44–60): in dry-run
mode it returns success before building any request; otherwise the network
interaction (POST, retries, the exception-to-failure translation) is the
abstract `net`. -/
def send_to_km (net : String → KMResult) (expr : String) (dryRun : Bool) :
    KMResult :=
  if dryRun then ⟨true, "Dry-run: Skipped sending to KM server."⟩
  else net expr

/-- `owl_to_km.process_assertion` (lines 125–150).  The registry keys are the
expression strings sent; the extractor's references are `ARef` tuples, which
are never equal to a registry key (a Python tuple never equals a `str`), so
the first reference always reaches the recursive call
`process_assertion(ref, dry_run)` — which raises `TypeError` because the
call is missing its two last positional arguments. -/
def process_assertion_km (refs : String → List ARef)
    (net : String → KMResult) (dryRun : Bool)
    (sent failed : List (String × String)) (a : String) :
    Except String (Bool × List (String × String) × List (String × String)) :=
  if (dget sent a).isSome then .ok (true, sent, failed)
  else
    match refs a with
    | _ :: _ =>
      .error "TypeError: process_assertion() missing 2 required positional arguments"
    | [] =>
      let res := send_to_km net a dryRun
      if res.success then .ok (true, dset sent a a, failed)
      else .ok (false, sent, dset failed a "processing_failure")

/-! ## Dictionary lemmas -/

theorem dget_dset_self {α β : Type} [DecidableEq α] (d : List (α × β)) (k : α)
    (v : β) : dget (dset d k v) k = some v := by
  induction d with
  | nil => simp [dset, dget]
  | cons e es ih =>
    by_cases h : e.1 = k
    · simp [dset, h, dget]
    · simp only [dset, if_neg h]
      simpa [dget, h] using ih

theorem dget_dset_ne {α β : Type} [DecidableEq α] (d : List (α × β))
    (k k' : α) (v : β) (h : k' ≠ k) : dget (dset d k v) k' = dget d k' := by
  induction d with
  | nil => simp [dset, dget, Ne.symm h]
  | cons e es ih =>
    by_cases he : e.1 = k
    · subst he
      simp [dset, dget, Ne.symm h, h]
    · simp only [dset, if_neg he]
      by_cases he' : e.1 = k'
      · simp [dget, he']
      · simpa [dget, he'] using ih

theorem dget_none_forall {α β : Type} [DecidableEq α] {d : List (α × β)}
    {k : α} (h : dget d k = none) : ∀ e ∈ d, e.1 ≠ k := by
  induction d with
  | nil => simp
  | cons e es ih =>
    intro e' he'
    by_cases hek : e.1 = k
    · simp [dget, hek] at h
    · rcases List.mem_cons.mp he' with he' | he'
      · simpa [he'] using hek
      · exact ih (by simpa [dget, hek] using h) e' he'

theorem dset_of_absent {α β : Type} [DecidableEq α] {d : List (α × β)}
    {k : α} (v : β) (h : ∀ e ∈ d, e.1 ≠ k) : dset d k v = d ++ [(k, v)] := by
  induction d with
  | nil => simp [dset]
  | cons e es ih =>
    have hek : e.1 ≠ k := h e (by simp)
    simp only [dset, if_neg hek, List.cons_append, List.cons.injEq, true_and]
    exact ih (fun e' he' => h e' (by simp [he']))

/-- The number of entries of `d` whose key is `k`. -/
def countKey {α β : Type} [DecidableEq α] (d : List (α × β)) (k : α) : Nat :=
  (d.filter (fun e => e.1 = k)).length

theorem countKey_zero_of_absent {α β : Type} [DecidableEq α]
    {d : List (α × β)} {k : α} (h : ∀ e ∈ d, e.1 ≠ k) : countKey d k = 0 := by
  simp only [countKey, List.length_eq_zero, List.filter_eq_nil_iff]
  intro e he
  simpa using h e he

/-! ## Membership through keep-first deduplication -/

theorem mem_firstOccurrencesAux {α : Type} [DecidableEq α] {a : α}
    {l : List α} (seen : List α) (hl : a ∈ l) (hs : a ∉ seen) :
    a ∈ firstOccurrencesAux l seen := by
  induction l generalizing seen with
  | nil => cases hl
  | cons x xs ih =>
    by_cases hax : a = x
    · subst hax
      simp [firstOccurrencesAux, hs]
    · have hxs : a ∈ xs := by
        rcases List.mem_cons.mp hl with h | h
        · exact absurd h hax
        · exact h
      by_cases hxseen : x ∈ seen
      · simpa [firstOccurrencesAux, hxseen] using ih seen hxs hs
      · have hnotin : a ∉ x :: seen := by
          intro hmem
          rcases List.mem_cons.mp hmem with h | h
          · exact hax h
          · exact hs h
        simp only [firstOccurrencesAux, if_neg hxseen]
        exact List.mem_cons_of_mem x (ih _ hxs hnotin)

theorem mem_firstOccurrences {α : Type} [DecidableEq α] {a : α} {l : List α}
    (hl : a ∈ l) : a ∈ firstOccurrences l :=
  mem_firstOccurrencesAux [] hl (by simp)

/-! ## Tokenizer lemmas (claim C4) -/

theorem isSymChar_ne_quote {c : Char} (h : isSymChar c = true) : c ≠ '"' := by
  intro hc
  subst hc
  simp [isSymChar] at h

/-- `removeQuotedAux` leaves a quote-free prefix untouched. -/
theorem removeQuotedAux_append (pre suf : List Char)
    (h : ∀ c ∈ pre, c ≠ '"') :
    removeQuotedAux (pre ++ suf) none = pre ++ removeQuotedAux suf none := by
  induction pre with
  | nil => simp
  | cons c cs ih =>
    have hc : c ≠ '"' := h c (by simp)
    simp only [List.cons_append, removeQuotedAux, if_neg hc]
    exact congrArg (c :: ·) (ih (fun d hd => h d (by simp [hd])))

/-- A maximal symbol run at the front of the remaining input is emitted as
one token (appended to the run accumulated so far). -/
theorem tokenizeAux_run (w : List Char) (d : Char) (rest acc : List Char)
    (hw : ∀ c ∈ w, isSymChar c = true) (hd : isSymChar d = false)
    (hne : acc.reverse ++ w ≠ []) :
    tokenizeAux (w ++ d :: rest) acc =
      ⟨acc.reverse ++ w⟩ :: tokenizeAux rest [] := by
  induction w generalizing acc with
  | nil =>
    have hacc : ¬ acc.isEmpty := by
      simpa [List.isEmpty_iff] using hne
    simp [tokenizeAux, hd, hacc]
  | cons c w' ih =>
    have hc : isSymChar c = true := hw c (by simp)
    simp only [List.cons_append, tokenizeAux, hc, if_true, List.append_eq]
    rw [ih (c :: acc) (fun x hx => hw x (by simp [hx])) (by simp)]
    simp

/-! ## The synthetic `:Dog superclasses :Animal` ontology (claims C1, C4) -/

def dogURI : String := "http://example.org/Dog"

def animalURI : String := "http://example.org/Animal"

/-- The ontology of the round-trip test: `:Dog rdf:type owl:Class`,
`:Animal rdf:type owl:Class`, `:Dog rdfs:subClassOf :Animal`. -/
def g1 : Graph :=
  [⟨dogURI, rdfTypeURI, .uri owlClassURI⟩,
   ⟨animalURI, rdfTypeURI, .uri owlClassURI⟩,
   ⟨dogURI, rdfsSubClassOfURI, .uri animalURI⟩]

/-- The resource-name table the pipeline builds for `g1` (no labels, so the
URI tails). -/
def c1Rtbl : List (String × Option String) :=
  match build_resource_names g1 [] with
  | .ok t => t
  | .error _ => []

def c1Ptbl : List (PKey × Option String) := build_predicate_names_svc g1 []

/-- The expression the service class generator produces for `:Dog`. -/
def c1Expr : String :=
  match class_to_km_svc g1 c1Rtbl c1Ptbl dogURI with
  | .ok e => e
  | .error _ => ""

/-- The extractor's dependencies of `:Dog`'s own expression. -/
def c1Deps : List ARef := get_referenced_assertions g1 c1Rtbl c1Expr

/-- **C1.** Evaluating the pipeline of the round-trip claim at its own
synthetic ontology: the generator yields `(Dog has (superclasses (Animal)))`
and the reference extractor returns `Class(:Dog)` **and** `Class(:Animal)` —
the subject's own token is reverse-resolved like any other symbol, so the
result is not the one-element set `{Class(:Animal)}` the claim (and the
sibling `km_syntax.get_prerequisite_assertions`, which drops the subject
token) prescribe. -/
theorem c1_round_trip_eval :
    build_resource_names g1 [] = .ok c1Rtbl ∧
    class_to_km_svc g1 c1Rtbl c1Ptbl dogURI = .ok c1Expr ∧
    c1Expr = "(Dog has (superclasses (Animal)))" ∧
    c1Deps = [ARef.cls dogURI, ARef.cls animalURI] ∧
    ARef.cls dogURI ∉ [ARef.cls animalURI] :=
  ⟨by rfl, by rfl, by rfl, by rfl, by decide⟩

/-- **C4.** For every class entity `R` (typed `owl:Class` in the graph)
whose resolved name is a non-empty token of word characters and hyphens,
not a built-in keyword, and reverse-resolvable to `R`, the extractor applied
to `R`'s own generated expression reports `Class(R)` among the
dependencies: the subject token is not excluded from the symbol scan. -/
theorem c4_self_dependency (g : Graph) (rtbl : List (String × Option String))
    (ptbl : List (PKey × Option String)) (R nm e : String)
    (hname : get_resource_name rtbl R = some nm)
    (hne : nm.data ≠ [])
    (hsym : ∀ c ∈ nm.data, isSymChar c = true)
    (hkw : nm ∉ builtInFrames)
    (hrev : dget (reverseNames rtbl) (some nm) = some R)
    (hcls : tripleMem g R rdfTypeURI (.uri owlClassURI) = true)
    (hgen : class_to_km_svc g rtbl ptbl R = .ok e) :
    ARef.cls R ∈ get_referenced_assertions g rtbl e := by
  -- the generated expression is `(` ++ nm ++ ` has` ++ body ++ `)`
  obtain ⟨body, hbody⟩ :
      ∃ body, e = "(" ++ nm ++ " has" ++ body ++ ")" := by
    unfold class_to_km_svc at hgen
    cases hfold : (slotsOf (slotPairs g rtbl ptbl R)).foldlM
        (fun acc sv => do
          let cl ← svcClauses stdPredicatesSvc sv.1 sv.2
          pure (acc ++ cl)) "" with
    | error msg => rw [hfold] at hgen; simp [Except.bind] at hgen
    | ok b =>
      rw [hfold] at hgen
      have hb : Except.ok (α := String)
          ("(" ++ pyFormat (get_resource_name rtbl R) ++ " has" ++ b ++ ")") =
          Except.ok e := hgen
      have he := Except.ok.inj hb
      exact ⟨b, by rw [← he, hname]; rfl⟩
  -- its first token is nm
  have hdata : e.data =
      '(' :: (nm.data ++ ' ' :: ("has" ++ body ++ ")").data) := by
    subst hbody
    simp only [String.data_append]
    simp
  have hnq : ∀ c ∈ '(' :: (nm.data ++ [' ']), c ≠ '"' := by
    intro c hc
    rcases List.mem_cons.mp hc with h | h
    · subst h; decide
    · rcases List.mem_append.mp h with h | h
      · exact isSymChar_ne_quote (hsym c h)
      · rcases List.mem_singleton.mp h with h
        subst h; decide
  have hclean : removeQuoted e.data =
      '(' :: (nm.data ++ ' ' ::
        removeQuotedAux ("has" ++ body ++ ")").data none) := by
    rw [hdata]
    have := removeQuotedAux_append ('(' :: (nm.data ++ [' ']))
      ("has" ++ body ++ ")").data hnq
    simpa [removeQuoted] using this
  have htok : nm ∈ tokenize (removeQuoted e.data) := by
    rw [hclean]
    show nm ∈ tokenizeAux _ []
    have hlp : isSymChar '(' = false := by decide
    simp only [tokenizeAux, hlp, if_false, List.isEmpty_nil, if_true]
    rw [tokenizeAux_run nm.data ' '
      (removeQuotedAux ("has" ++ body ++ ")").data none) [] hsym (by decide)
      (by simpa using hne)]
    simp
  -- the token survives the keyword filter and the set deduplication
  have hframes : nm ∈ firstOccurrences
      ((tokenize (removeQuoted e.data)).filter
        (fun sym => sym ∉ builtInFrames)) := by
    apply mem_firstOccurrences
    exact List.mem_filter.mpr ⟨htok, by simpa using hkw⟩
  -- it reverse-resolves to R, which is typed as a class
  unfold get_referenced_assertions
  apply List.mem_flatMap.mpr
  refine ⟨R, List.mem_filterMap.mpr ⟨nm, hframes, hrev⟩, ?_⟩
  simp [get_uri_type, hcls]

/-- **C4, witness.** The `:Dog` class of `g1` reports itself. -/
theorem c4_self_dependency_witness : ARef.cls dogURI ∈ c1Deps :=
  c4_self_dependency g1 c1Rtbl c1Ptbl dogURI "Dog" c1Expr (by rfl) (by decide)
    (by decide) (by decide) (by rfl) (by rfl) (by rfl)

/-! ## The `setdefault` fold computes the first-seen grouping (claims C7, C8) -/

theorem mem_of_mem_firstOccurrencesAux {α : Type} [DecidableEq α] {a : α} :
    ∀ {l : List α} {seen : List α}, a ∈ firstOccurrencesAux l seen → a ∈ l := by
  intro l
  induction l with
  | nil => intro seen h; cases h
  | cons x xs ih =>
    intro seen h
    by_cases hx : x ∈ seen
    · simp only [firstOccurrencesAux, if_pos hx] at h
      exact List.mem_cons_of_mem x (ih h)
    · simp only [firstOccurrencesAux, if_neg hx] at h
      rcases List.mem_cons.mp h with h | h
      · simp [h]
      · exact List.mem_cons_of_mem x (ih h)

theorem mem_firstOccurrences_iff {α : Type} [DecidableEq α] {a : α}
    {l : List α} : a ∈ firstOccurrences l ↔ a ∈ l :=
  ⟨mem_of_mem_firstOccurrencesAux, mem_firstOccurrences⟩

theorem firstOccurrencesAux_avoids {α : Type} [DecidableEq α] :
    ∀ (l seen : List α) (a : α), a ∈ seen →
      a ∉ firstOccurrencesAux l seen := by
  intro l
  induction l with
  | nil => intro seen a _ h; cases h
  | cons x xs ih =>
    intro seen a ha h
    by_cases hx : x ∈ seen
    · exact ih seen a ha (by simpa [firstOccurrencesAux, hx] using h)
    · simp only [firstOccurrencesAux, if_neg hx] at h
      rcases List.mem_cons.mp h with h | h
      · subst h; exact hx ha
      · exact ih (x :: seen) a (List.mem_cons_of_mem x ha) h

theorem nodup_firstOccurrencesAux {α : Type} [DecidableEq α] :
    ∀ (l seen : List α), (firstOccurrencesAux l seen).Nodup := by
  intro l
  induction l with
  | nil => intro seen; simp [firstOccurrencesAux]
  | cons x xs ih =>
    intro seen
    by_cases hx : x ∈ seen
    · simpa [firstOccurrencesAux, hx] using ih seen
    · simp only [firstOccurrencesAux, if_neg hx, List.nodup_cons]
      exact ⟨firstOccurrencesAux_avoids xs (x :: seen) x (by simp), ih _⟩

theorem nodup_firstOccurrences {α : Type} [DecidableEq α] (l : List α) :
    (firstOccurrences l).Nodup :=
  nodup_firstOccurrencesAux l []

theorem firstOccurrencesAux_snoc {α : Type} [DecidableEq α] :
    ∀ (l seen : List α) (x : α),
      firstOccurrencesAux (l ++ [x]) seen =
        if x ∈ l ∨ x ∈ seen then firstOccurrencesAux l seen
        else firstOccurrencesAux l seen ++ [x] := by
  intro l
  induction l with
  | nil =>
    intro seen x
    by_cases hx : x ∈ seen <;> simp [firstOccurrencesAux, hx]
  | cons y l ih =>
    intro seen x
    have hcond : (x ∈ l ∨ x ∈ y :: seen) ↔ (x ∈ y :: l ∨ x ∈ seen) := by
      simp only [List.mem_cons]
      tauto
    by_cases hy : y ∈ seen
    · have h1 : firstOccurrencesAux ((y :: l) ++ [x]) seen =
          firstOccurrencesAux (l ++ [x]) seen := by
        simp [firstOccurrencesAux, hy]
      have h2 : firstOccurrencesAux (y :: l) seen =
          firstOccurrencesAux l seen := by
        simp [firstOccurrencesAux, hy]
      rw [h1, ih seen x, h2]
      by_cases hxy : x = y
      · subst hxy
        simp [hy]
      · simp only [List.mem_cons, hxy, false_or]
    · have h1 : firstOccurrencesAux ((y :: l) ++ [x]) seen =
          y :: firstOccurrencesAux (l ++ [x]) (y :: seen) := by
        simp [firstOccurrencesAux, hy]
      have h2 : firstOccurrencesAux (y :: l) seen =
          y :: firstOccurrencesAux l (y :: seen) := by
        simp [firstOccurrencesAux, hy]
      rw [h1, ih (y :: seen) x, h2]
      by_cases hc : x ∈ y :: l ∨ x ∈ seen
      · rw [if_pos (hcond.mpr hc), if_pos hc]
      · rw [if_neg (fun hh => hc (hcond.mp hh)), if_neg hc]
        simp

theorem firstOccurrences_snoc {α : Type} [DecidableEq α] (l : List α)
    (x : α) :
    firstOccurrences (l ++ [x]) =
      if x ∈ l then firstOccurrences l else firstOccurrences l ++ [x] := by
  unfold firstOccurrences
  rw [firstOccurrencesAux_snoc]
  simp

theorem dappend_map_update {κ ν : Type} [DecidableEq κ] :
    ∀ (keys : List κ) (f : κ → List ν) (k : κ) (v : ν),
      keys.Nodup → k ∈ keys →
      dappend (keys.map (fun k' => (k', f k'))) k v =
        keys.map (fun k' => (k', if k' = k then f k' ++ [v] else f k')) := by
  intro keys
  induction keys with
  | nil => intro f k v _ hk; cases hk
  | cons y keys ih =>
    intro f k v hnd hk
    rcases List.mem_cons.mp hk with hyk | hk'
    · subst hyk
      simp only [List.map_cons, dappend, if_pos]
      have hcongr : List.map (fun k' => (k', f k')) keys =
          List.map (fun k' => (k', if k' = k then f k' ++ [v] else f k'))
            keys := by
        apply List.map_congr_left
        intro k' hk'
        have hne : k' ≠ k := by
          intro hh
          subst hh
          exact (List.nodup_cons.mp hnd).1 hk'
        simp [hne]
      rw [← hcongr]
    · have hyk : y ≠ k := by
        intro hh
        subst hh
        exact (List.nodup_cons.mp hnd).1 hk'
      simp only [List.map_cons, dappend, if_neg hyk, hyk, if_false]
      rw [ih f k v (List.nodup_cons.mp hnd).2 hk']

theorem dappend_map_append {κ ν : Type} [DecidableEq κ] :
    ∀ (keys : List κ) (f : κ → List ν) (k : κ) (v : ν),
      k ∉ keys →
      dappend (keys.map (fun k' => (k', f k'))) k v =
        keys.map (fun k' => (k', f k')) ++ [(k, [v])] := by
  intro keys
  induction keys with
  | nil => intro f k v _; simp [dappend]
  | cons y keys ih =>
    intro f k v hk
    have hyk : y ≠ k := by
      intro hh
      exact hk (by simp [hh])
    simp only [List.map_cons, dappend, if_neg hyk, List.cons_append,
      List.cons.injEq, true_and]
    exact ih f k v (fun hh => hk (List.mem_cons_of_mem y hh))

theorem filter_keys_nil {κ ν : Type} [DecidableEq κ] (ps : List (κ × ν))
    (k : κ) (h : k ∉ ps.map (·.1)) :
    ps.filter (fun pv => pv.1 = k) = [] := by
  apply List.filter_eq_nil_iff.mpr
  intro pv hpv
  simp only [decide_eq_true_eq]
  intro hh
  exact h (by simpa [← hh] using List.mem_map_of_mem (·.1) hpv)

/-- The generic first-seen grouping the spec-side generators use. -/
theorem specGroupSlots_snoc (ps : List (Option String × Option String))
    (p : Option String × Option String) :
    specGroupSlots (ps ++ [p]) = dappend (specGroupSlots ps) p.1 p.2 := by
  obtain ⟨k, v⟩ := p
  unfold specGroupSlots firstKeys
  simp only [List.map_append, List.map_cons, List.map_nil]
  rw [firstOccurrences_snoc]
  by_cases hk : k ∈ ps.map (·.1)
  · rw [if_pos hk]
    rw [dappend_map_update _ _ k v (nodup_firstOccurrences _)
      (mem_firstOccurrences_iff.mpr hk)]
    apply List.map_congr_left
    intro k' _
    simp only [List.filter_append, List.map_append]
    by_cases hk' : k' = k
    · subst hk'
      simp
    · have : ¬ (k = k') := fun hh => hk' hh.symm
      simp [List.filter, this, hk']
  · rw [if_neg hk]
    rw [dappend_map_append _ _ k v
      (fun hh => hk (mem_firstOccurrences_iff.mp hh))]
    rw [List.map_append]
    congr 1
    · apply List.map_congr_left
      intro k' hk'
      have hne : ¬ (k = k') := by
        intro hh
        subst hh
        exact hk (mem_firstOccurrences_iff.mp hk')
      simp only [List.filter_append, List.map_append]
      simp [List.filter, hne]
    · have hnil := filter_keys_nil ps k hk
      simp [List.filter_append, hnil, List.filter]

/-- The source's `setdefault` fold and the spec's grouping agree. -/
theorem slotsOf_eq_specGroupSlots
    (pairs : List (Option String × Option String)) :
    slotsOf pairs = specGroupSlots pairs := by
  induction pairs using List.reverseRecOn with
  | nil => rfl
  | append_singleton ps p ih =>
    unfold slotsOf at ih ⊢
    rw [List.foldl_append]
    simp only [List.foldl_cons, List.foldl_nil]
    rw [ih, specGroupSlots_snoc]

/-- **C7 (amended).** For the `km_syntax.py` class generator the first two
conjuncts of the claim hold exactly: the generated expression is the
spec-side rendering with one clause per distinct slot (first-seen order) and
that slot's values in store order without deduplication — but with **no**
suppression of the `owl#Class` type-marker value. -/
theorem c7_class_no_suppression (g : Graph)
    (rtbl : List (String × Option String))
    (ptbl : List (PKey × Option String)) (r : String) :
    class_to_km g rtbl ptbl r = specClassToKmNoSuppress g rtbl ptbl r := by
  unfold class_to_km specClassToKmNoSuppress
  rw [slotsOf_eq_specGroupSlots]

/-- **C8.** `individual_to_km` emits the same frame shape as the class
generator of `km_syntax.py` except that each slot's repeated values are
collapsed to their first occurrence, exactly as the spec-side
`specIndividualToKm` (built by first-seen grouping plus keep-first value
deduplication) prescribes. -/
theorem c8_individual_dedup (g : Graph)
    (rtbl : List (String × Option String))
    (ptbl : List (PKey × Option String)) (r : String) :
    individual_to_km g rtbl ptbl r = specIndividualToKm g rtbl ptbl r := by
  unfold individual_to_km specIndividualToKm
  rw [slotsOf_eq_specGroupSlots]

/-! ## C7 counterexample scenario -/

def birdURI : String := "http://example.org/Bird"

/-- `:Dog rdf:type owl:Class` with two superclasses — the `owl#Class`
type-marker value and a slot with two values in one frame. -/
def c7Graph : Graph :=
  [⟨dogURI, rdfTypeURI, .uri owlClassURI⟩,
   ⟨dogURI, rdfsSubClassOfURI, .uri animalURI⟩,
   ⟨dogURI, rdfsSubClassOfURI, .uri birdURI⟩]

def c7Rtbl : List (String × Option String) :=
  match build_resource_names c7Graph [] with
  | .ok t => t
  | .error _ => []

def c7PtblKm : List (PKey × Option String) := build_predicate_names c7Graph []

def c7PtblSvc : List (PKey × Option String) :=
  build_predicate_names_svc c7Graph []

/-- **C7, counterexample.** At the concrete `:Dog` frame, neither class
generator produces the expression the claim prescribes
(`specClassToKmClaim`): the `km_syntax.py` generator emits the `owl#Class`
type-marker value instead of suppressing it, and the
`service/KMSyntaxService.py` generator emits the `superclasses` clause once
**per value** (twice) instead of once per distinct predicate, so the claim's
conjunction is false on both cited implementations. -/
theorem c7_counterexample :
    class_to_km c7Graph c7Rtbl c7PtblKm dogURI =
      .ok "(Dog has (instance-of (owl#Class)) (superclasses (Animal Bird)))" ∧
    class_to_km_svc c7Graph c7Rtbl c7PtblSvc dogURI =
      .ok "(Dog has (superclasses (Animal Bird)) (superclasses (Animal Bird)))" ∧
    specClassToKmClaim c7Graph c7Rtbl c7PtblKm dogURI =
      .ok "(Dog has (superclasses (Animal Bird)))" ∧
    specClassToKmClaim c7Graph c7Rtbl c7PtblSvc dogURI =
      .ok "(Dog has (superclasses (Animal Bird)))" ∧
    class_to_km c7Graph c7Rtbl c7PtblKm dogURI ≠
      specClassToKmClaim c7Graph c7Rtbl c7PtblKm dogURI ∧
    class_to_km_svc c7Graph c7Rtbl c7PtblSvc dogURI ≠
      specClassToKmClaim c7Graph c7Rtbl c7PtblSvc dogURI := by
  refine ⟨by rfl, by rfl, by rfl, by rfl, ?_, ?_⟩
  · intro h
    rw [(by rfl : class_to_km c7Graph c7Rtbl c7PtblKm dogURI =
      Except.ok "(Dog has (instance-of (owl#Class)) (superclasses (Animal Bird)))")]
      at h
    rw [(by rfl : specClassToKmClaim c7Graph c7Rtbl c7PtblKm dogURI =
      Except.ok "(Dog has (superclasses (Animal Bird)))")] at h
    exact absurd (Except.ok.inj h) (by decide)
  · intro h
    rw [(by rfl : class_to_km_svc c7Graph c7Rtbl c7PtblSvc dogURI =
      Except.ok "(Dog has (superclasses (Animal Bird)) (superclasses (Animal Bird)))")]
      at h
    rw [(by rfl : specClassToKmClaim c7Graph c7Rtbl c7PtblSvc dogURI =
      Except.ok "(Dog has (superclasses (Animal Bird)))")] at h
    exact absurd (Except.ok.inj h) (by decide)

/-! ## C9: name resolution can raise, and otherwise always assigns -/

/-- An ontology whose only annotation label is the empty literal. -/
def c9Graph : Graph := [⟨dogURI, cycAnnotLabelURI, .lit ""⟩]

/-- **C9, counterexample.** `build_resource_names` is *not* error-free: an
empty annotation-label literal reaches `label[0].isupper()` and raises
`IndexError`. -/
theorem c9_counterexample :
    build_resource_names c9Graph [] =
      .error "IndexError: string index out of range" := by rfl

theorem chooseAnnotLabel_ok (all : List String) :
    ∀ (labels : List String), (∀ x ∈ labels, x ≠ "") →
      ∃ v, chooseAnnotLabel all labels = .ok v := by
  intro labels
  induction labels with
  | nil => intro _; exact ⟨all.headD "", rfl⟩
  | cons l ls ih =>
    intro h
    have hl : l ≠ "" := h l (by simp)
    have hd : l.data ≠ [] := by
      intro hdata
      exact hl (congrArg String.mk hdata)
    cases hld : l.data with
    | nil => exact absurd hld hd
    | cons c cc =>
      by_cases hc : c.isUpper
      · exact ⟨l, by simp [chooseAnnotLabel, hld, hc]⟩
      · obtain ⟨v, hv⟩ := ih (fun x hx => h x (by simp [hx]))
        exact ⟨v, by simp [chooseAnnotLabel, hld, hc, hv]⟩

theorem resolveResourceName_ok (g : Graph) (m : ObjectMap)
    (h : ∀ t ∈ g, t.pred = cycAnnotLabelURI →
      ∀ s, t.obj = Node.lit s → s ≠ "") (r : String) :
    ∃ v, resolveResourceName g m r = .ok v := by
  unfold resolveResourceName
  cases hm : dget m r with
  | some lbl => exact ⟨lbl, rfl⟩
  | none =>
    cases hl : annotLabels g r with
    | nil => exact ⟨some (rdf_to_krl_name r), rfl⟩
    | cons l ls =>
      have hne : ∀ x ∈ annotLabels g r, x ≠ "" := by
        intro x hx
        unfold annotLabels at hx
        rcases List.mem_filterMap.mp hx with ⟨o, ho, hox⟩
        unfold objectsOf at ho
        rcases List.mem_map.mp ho with ⟨t, ht, hto⟩
        have hf := List.mem_filter.mp ht
        have hpred : t.pred = cycAnnotLabelURI := by
          have := hf.2
          simp only [Bool.and_eq_true, decide_eq_true_eq] at this
          exact this.2
        have holit : o = Node.lit x := by
          cases o with
          | uri u => cases hox
          | lit s =>
            have : s = x := by simpa using hox
            rw [this]
        exact h t hf.1 hpred x (hto.trans holit)
    -- the scan succeeds on non-empty labels
      obtain ⟨v, hv⟩ := chooseAnnotLabel_ok (l :: ls) (l :: ls)
        (by rw [← hl]; exact hne)
      refine ⟨some v, ?_⟩
      show Except.map some (chooseAnnotLabel (l :: ls) (l :: ls)) =
        Except.ok (some v)
      rw [hv]
      rfl

theorem build_resource_names_fold (g : Graph) (m : ObjectMap)
    (hok : ∀ r, ∃ v, resolveResourceName g m r = .ok v) :
    ∀ (subs : List String) (tbl : List (String × Option String)),
      ∃ out, subs.foldlM
          (fun tbl s => do
            let nm ← resolveResourceName g m s
            pure (dset tbl s nm)) tbl = .ok out ∧
        (∀ r, (dget tbl r).isSome → (dget out r).isSome) ∧
        (∀ r ∈ subs, (dget out r).isSome) := by
  intro subs
  induction subs with
  | nil =>
    intro tbl
    exact ⟨tbl, rfl, fun r hr => hr, by simp⟩
  | cons s ss ih =>
    intro tbl
    obtain ⟨v, hv⟩ := hok s
    obtain ⟨out, hout, hmono, hcov⟩ := ih (dset tbl s v)
    refine ⟨out, ?_, ?_, ?_⟩
    · simp only [List.foldlM_cons, hv, Except.bind]
      exact hout
    · intro r hr
      apply hmono
      by_cases hrs : r = s
      · subst hrs
        simp [dget_dset_self]
      · rwa [dget_dset_ne tbl s r v hrs]
    · intro r hr
      rcases List.mem_cons.mp hr with hr | hr
      · subst hr
        exact hmono r (by simp [dget_dset_self])
      · exact hcov r hr

/-- **C9 (amended).** `build_resource_names` always terminates, and — as long
as no annotation label literal in the graph is the empty string — it never
errors and assigns an entry to every subject, chosen by the stated priority
(external map label when the entry exists, else the annotation scan, else
the URI tail).  With an empty annotation label present, `IndexError` is
possible (see the counterexample). -/
theorem c9_resolution_total (g : Graph) (m : ObjectMap)
    (h : ∀ t ∈ g, t.pred = cycAnnotLabelURI →
      ∀ s, t.obj = Node.lit s → s ≠ "") :
    ∃ tbl, build_resource_names g m = .ok tbl ∧
      ∀ r ∈ subjectsOf g, (dget tbl r).isSome := by
  obtain ⟨out, hout, _, hcov⟩ :=
    build_resource_names_fold g m (resolveResourceName_ok g m h)
      (subjectsOf g) []
  exact ⟨out, hout, hcov⟩

/-- **C9, witness.** A one-subject ontology with a non-empty annotation
label resolves without error. -/
theorem c9_resolution_total_witness :
    ∃ tbl, build_resource_names [⟨dogURI, cycAnnotLabelURI, .lit "Dog"⟩] [] =
        .ok tbl ∧
      ∀ r ∈ subjectsOf [⟨dogURI, cycAnnotLabelURI, .lit "Dog"⟩],
        (dget tbl r).isSome :=
  c9_resolution_total [⟨dogURI, cycAnnotLabelURI, .lit "Dog"⟩] []
    (by
      intro t ht hpred s hobj
      have ht' : t = ⟨dogURI, cycAnnotLabelURI, .lit "Dog"⟩ :=
        List.mem_singleton.mp ht
      subst ht'
      have hs : s = "Dog" := (Node.lit.inj hobj).symm
      subst hs
      decide)

/-! ## C3: what the stalled schedulers actually record -/

/-- **C3, counterexample.** Publishing the `:Dog` class assertion of `g1`
when nothing succeeds: its extractor dependencies are non-empty (and none is
Sent), so the claim requires a `Failed("dependency_failure")` record — but
the round loop of `processor/owl/OWLGraphProcessor.py` records
`"unknown_failure"` (it never consults dependencies), and the round loop of
`main.py` stops with the assertion still remaining while recording no
failure reason at all (it has no failure registry). -/
theorem c3_counterexample :
    c1Deps = [ARef.cls dogURI, ARef.cls animalURI] ∧
    owlProcRun (fun _ => false) [ARef.cls dogURI] =
      ([ARef.cls dogURI], [(ARef.cls dogURI, "unknown_failure")]) ∧
    ("unknown_failure" : String) ≠ "dependency_failure" ∧
    (mainRun (fun _ => c1Deps) (fun _ => "") (fun _ => true)
      [ARef.cls dogURI]) = ([], [], [ARef.cls dogURI]) :=
  ⟨by rfl, by rfl, by decide, by rfl⟩

/-- The invariant of the failure registry of the processor-variant loop:
everything it ever records is `"unknown_failure"`, and every kept-back
assertion is recorded. -/
def OwlFailedInv (remaining : List ARef) (failed : List (ARef × String)) :
    Prop :=
  (∀ a ∈ remaining, dget failed a = some "unknown_failure") ∧
  (∀ k v, dget failed k = some v → v = "unknown_failure")

theorem owlProcStep_inv (succ : ARef → Bool) :
    ∀ (l racc : List ARef) (facc : List (ARef × String)) (b : Bool),
      OwlFailedInv racc facc →
      OwlFailedInv
        (l.foldl
          (fun (acc : List ARef × List (ARef × String) × Bool) a =>
            if succ a then
              (acc.1, acc.2.1, acc.2.2 || decide (a ∈ owlSuccessfullySent))
            else
              (acc.1 ++ [a],
               (if (dget acc.2.1 a).isSome then acc.2.1
                else dset acc.2.1 a "unknown_failure"),
               acc.2.2))
          (racc, facc, b)).1
        (l.foldl
          (fun (acc : List ARef × List (ARef × String) × Bool) a =>
            if succ a then
              (acc.1, acc.2.1, acc.2.2 || decide (a ∈ owlSuccessfullySent))
            else
              (acc.1 ++ [a],
               (if (dget acc.2.1 a).isSome then acc.2.1
                else dset acc.2.1 a "unknown_failure"),
               acc.2.2))
          (racc, facc, b)).2.1 := by
  intro l
  induction l with
  | nil => intro racc facc b hinv; simpa using hinv
  | cons a l ih =>
    intro racc facc b hinv
    simp only [List.foldl_cons]
    by_cases hs : succ a = true
    · simp only [hs, if_true]
      exact ih racc facc _ hinv
    · simp only [hs, if_false, Bool.false_eq_true]
      by_cases hp : (dget facc a).isSome
      · simp only [hp, if_true]
        apply ih
        constructor
        · intro x hx
          rcases List.mem_append.mp hx with hx | hx
          · exact hinv.1 x hx
          · rcases List.mem_singleton.mp hx with rfl
            rcases Option.isSome_iff_exists.mp hp with ⟨v, hv⟩
            rw [hv, hinv.2 x v hv]
        · exact hinv.2
      · simp only [hp, if_false, Bool.false_eq_true]
        apply ih
        constructor
        · intro x hx
          rcases List.mem_append.mp hx with hx | hx
          · have hxne : x ≠ a := by
              intro hh
              apply hp
              rw [← hh, hinv.1 x hx]
              rfl
            rw [dget_dset_ne facc a x _ hxne]
            exact hinv.1 x hx
          · rcases List.mem_singleton.mp hx with rfl
            exact dget_dset_self facc x _
        · intro k v hv
          by_cases hka : k = a
          · subst hka
            rw [dget_dset_self facc k _] at hv
            exact (Option.some.inj hv).symm
          · rw [dget_dset_ne facc a k _ hka] at hv
            exact hinv.2 k v hv

theorem owlProcStep_progress_false (succ : ARef → Bool) :
    ∀ (l racc : List ARef) (facc : List (ARef × String)),
      (l.foldl
        (fun (acc : List ARef × List (ARef × String) × Bool) a =>
          if succ a then
            (acc.1, acc.2.1, acc.2.2 || decide (a ∈ owlSuccessfullySent))
          else
            (acc.1 ++ [a],
             (if (dget acc.2.1 a).isSome then acc.2.1
              else dset acc.2.1 a "unknown_failure"),
             acc.2.2))
        (racc, facc, false)).2.2 = false := by
  intro l
  induction l with
  | nil => intro racc facc; rfl
  | cons a l ih =>
    intro racc facc
    simp only [List.foldl_cons]
    by_cases hs : succ a = true
    · simp only [hs, if_true]
      have : (false || decide (a ∈ owlSuccessfullySent)) = false := by
        simp [owlSuccessfullySent]
      rw [this]
      exact ih racc facc
    · simp only [hs, if_false, Bool.false_eq_true]
      by_cases hp : (dget facc a).isSome <;> simp only [hp, if_true, if_false,
        Bool.false_eq_true] <;> exact ih _ _

/-- **C3 (amended).** When the processor-variant scheduler stops, every
assertion it leaves unprocessed is recorded as `Failed("unknown_failure")` —
regardless of its dependency status; `"dependency_failure"` is never
assigned by either cited round loop (the `main.py` loop records no reasons
at all, see the counterexample). -/
theorem owlProcRun_eq (succ : ARef → Bool) (l : List ARef) :
    owlProcRun succ l =
      if l.isEmpty then (l, [])
      else ((owlProcStep succ l []).1, (owlProcStep succ l []).2.1) := by
  unfold owlProcRun owlProcLoop
  by_cases he : l.isEmpty
  · simp [he]
  · simp only [he, Bool.false_eq_true, if_false]
    have hpf : (owlProcStep succ l []).2.2 = false :=
      owlProcStep_progress_false succ l [] []
    simp [hpf]

theorem c3_stall_reasons (succ : ARef → Bool) (l : List ARef) (a : ARef)
    (ha : a ∈ (owlProcRun succ l).1) :
    dget (owlProcRun succ l).2 a = some "unknown_failure" := by
  rw [owlProcRun_eq] at ha ⊢
  by_cases he : l.isEmpty
  · simp [List.isEmpty_iff.mp he] at ha
  · simp only [he, Bool.false_eq_true, if_false] at ha ⊢
    have hinv : OwlFailedInv (owlProcStep succ l []).1
        (owlProcStep succ l []).2.1 :=
      owlProcStep_inv succ l [] [] false ⟨by simp, by simp [dget]⟩
    exact hinv.1 a ha

/-- **C3, witness of the amended claim.** -/
theorem c3_stall_reasons_witness :
    dget (owlProcRun (fun _ => false) [ARef.cls dogURI]).2 (ARef.cls dogURI) =
      some "unknown_failure" :=
  c3_stall_reasons (fun _ => false) [ARef.cls dogURI] (ARef.cls dogURI)
    (by decide)

/-! ## C10: dry-run publishing is idempotent -/

/-- **C10 (amended).** A dry-run `Publish` performs no network interaction
(the result is independent of the network function) and reports success
unconditionally; and invoking `process_assertion` twice for the same
not-yet-sent assertion leaves the registry with exactly one `Sent` entry —
the second call returning success immediately with the registry unchanged,
for any network behaviour — **only when the assertion's extracted reference
list is empty**: with any reference present, the argument-less recursive
call raises `TypeError` on both invocations and nothing is ever recorded
(see the counterexample). -/
theorem c10_dry_run_idempotent (net net' : String → KMResult)
    (refs : String → List ARef) (sent failed : List (String × String))
    (a : String)
    (hnew : dget sent a = none) (hrefs : refs a = []) :
    send_to_km net a true = send_to_km net' a true ∧
    (send_to_km net a true).success = true ∧
    process_assertion_km refs net true sent failed a =
      .ok (true, dset sent a a, failed) ∧
    process_assertion_km refs net' true (dset sent a a) failed a =
      .ok (true, dset sent a a, failed) ∧
    countKey (dset sent a a) a = 1 := by
  refine ⟨rfl, rfl, ?_, ?_, ?_⟩
  · unfold process_assertion_km
    rw [hnew, hrefs]
    rfl
  · unfold process_assertion_km
    rw [dget_dset_self]
    rfl
  · have habs : ∀ e ∈ sent, e.1 ≠ a := dget_none_forall hnew
    rw [dset_of_absent a habs]
    unfold countKey
    rw [List.filter_append]
    rw [List.filter_eq_nil_iff.mpr (by
      intro e he
      simpa using habs e he)]
    simp

/-- **C10, witness.** A concrete dry-run double publish with a failing
network. -/
theorem c10_dry_run_idempotent_witness :
    send_to_km (fun _ => ⟨false, "down"⟩) "(Dog has)" true =
      send_to_km (fun _ => ⟨true, "up"⟩) "(Dog has)" true ∧
    (send_to_km (fun _ => ⟨false, "down"⟩) "(Dog has)" true).success = true ∧
    process_assertion_km (fun _ => []) (fun _ => ⟨false, "down"⟩) true [] []
      "(Dog has)" = .ok (true, dset [] "(Dog has)" "(Dog has)", []) ∧
    process_assertion_km (fun _ => []) (fun _ => ⟨true, "up"⟩) true
      (dset [] "(Dog has)" "(Dog has)") [] "(Dog has)" =
      .ok (true, dset [] "(Dog has)" "(Dog has)", []) ∧
    countKey (dset ([] : List (String × String)) "(Dog has)" "(Dog has)")
      "(Dog has)" = 1 :=
  c10_dry_run_idempotent (fun _ => ⟨false, "down"⟩) (fun _ => ⟨true, "up"⟩)
    (fun _ => []) [] [] "(Dog has)" (by rfl) (by rfl)

/-- The reference function as `owl_to_km.process_assertion` actually uses
it: the extractor over the run's resource-name table. -/
def c10Refs (e : String) : List ARef := get_referenced_assertions g1 c1Rtbl e

/-- **C10, counterexample.** On the pipeline's own `:Dog` expression the
extracted reference list is non-empty (the subject's self-dependency is
always in it), the references are tuples that are never keys of the
string-keyed registry, and so a dry-run `process_assertion` call — first or
second alike, from the empty registry — raises `TypeError` at the recursive
`process_assertion(ref, dry_run)` call that is missing its two last
positional arguments: it does not return success and no `Sent` entry is ever
recorded, contradicting the claim's registry outcome. -/
theorem c10_counterexample :
    c10Refs c1Expr = [ARef.cls dogURI, ARef.cls animalURI] ∧
    process_assertion_km c10Refs (fun _ => ⟨true, "ok"⟩) true [] [] c1Expr =
      .error
        "TypeError: process_assertion() missing 2 required positional arguments" ∧
    process_assertion_km c10Refs (fun _ => ⟨true, "ok"⟩) true [] [] c1Expr ≠
      .ok (true, dset [] c1Expr c1Expr, []) := by
  refine ⟨by rfl, by rfl, ?_⟩
  intro h
  rw [(by rfl : process_assertion_km c10Refs (fun _ => ⟨true, "ok"⟩) true []
    [] c1Expr =
    .error
      "TypeError: process_assertion() missing 2 required positional arguments")]
    at h
  exact absurd h (by simp)

/-! ## C2: the dispatch-ordering invariant of the round scheduler -/

theorem dget_dispatchRound (gen : ARef → String) (pub : ARef → Bool) :
    ∀ (ready : List ARef) (sent : List (ARef × String)) (B : ARef),
      (dget (dispatchRound gen pub sent ready) B).isSome = true ↔
        (dget sent B).isSome = true ∨ (B ∈ ready ∧ pub B = true) := by
  intro ready
  induction ready with
  | nil => intro sent B; simp [dispatchRound]
  | cons a ready' ih =>
    intro sent B
    have hstep : dispatchRound gen pub sent (a :: ready') =
        dispatchRound gen pub
          (if pub a then dset sent a (gen a) else sent) ready' := by
      unfold dispatchRound process_assertion_main
      simp only [List.foldl_cons]
      by_cases hp : pub a <;> simp [hp]
    rw [hstep, ih]
    by_cases hp : pub a
    · simp only [hp, if_true]
      by_cases hBa : B = a
      · subst hBa
        simp [dget_dset_self, hp]
      · rw [dget_dset_ne sent a B _ hBa]
        constructor
        · rintro (h | h)
          · exact Or.inl h
          · exact Or.inr ⟨List.mem_cons_of_mem a h.1, h.2⟩
        · rintro (h | ⟨hm, hpb⟩)
          · exact Or.inl h
          · rcases List.mem_cons.mp hm with h | h
            · exact absurd h hBa
            · exact Or.inr ⟨h, hpb⟩
    · simp only [hp, if_false, Bool.false_eq_true]
      constructor
      · rintro (h | h)
        · exact Or.inl h
        · exact Or.inr ⟨List.mem_cons_of_mem a h.1, h.2⟩
      · rintro (h | ⟨hm, hpb⟩)
        · exact Or.inl h
        · rcases List.mem_cons.mp hm with h | h
          · subst h
            exact absurd hpb (by simpa using hp)
          · exact Or.inr ⟨h, hpb⟩

theorem mainRunAux_ordering (deps : ARef → List ARef) (gen : ARef → String)
    (pub : ARef → Bool) :
    ∀ (fuel : Nat) (assertions : List ARef) (sent : List (ARef × String))
      (i : Nat) (rd : Round) (A B : ARef),
      (mainRunAux deps gen pub fuel assertions sent).1[i]? = some rd →
      A ∈ rd.dispatched → B ∈ deps A →
      (dget sent B).isSome = true ∨
        ∃ j rd', j < i ∧
          (mainRunAux deps gen pub fuel assertions sent).1[j]? = some rd' ∧
          B ∈ rd'.succeeded := by
  intro fuel
  induction fuel with
  | zero => intro assertions sent i rd A B hrd; simp [mainRunAux] at hrd
  | succ n ih =>
    intro assertions sent i rd A B hrd hA hB
    by_cases he : (get_ready_assertions deps sent assertions).isEmpty
    · rw [mainRunAux, if_pos he] at hrd
      simp at hrd
    · rw [mainRunAux, if_neg he] at hrd
      cases i with
      | zero =>
        simp only [List.getElem?_cons_zero, Option.some.injEq] at hrd
        subst hrd
        have hready : A ∈ get_ready_assertions deps sent assertions := hA
        have hall := (List.mem_filter.mp hready).2
        simp only [List.all_eq_true] at hall
        exact Or.inl (by simpa using hall B hB)
      | succ i' =>
        simp only [List.getElem?_cons_succ] at hrd
        rcases ih (assertions.filter
            (fun a => a ∉ get_ready_assertions deps sent assertions))
            (dispatchRound gen pub sent
              (get_ready_assertions deps sent assertions))
            i' rd A B hrd hA hB with h | ⟨j, rd', hj, hrd', hsucc⟩
        · rcases (dget_dispatchRound gen pub _ sent B).mp h with h | ⟨hm, hp⟩
          · exact Or.inl h
          · refine Or.inr ⟨0, ⟨get_ready_assertions deps sent assertions,
              (get_ready_assertions deps sent assertions).filter pub⟩,
              Nat.succ_pos i', ?_, ?_⟩
            · rw [mainRunAux, if_neg he]
              simp
            · simpa using List.mem_filter.mpr ⟨hm, hp⟩
        · refine Or.inr ⟨j + 1, rd', Nat.succ_lt_succ hj, ?_, hsucc⟩
          rw [mainRunAux, if_neg he]
          simpa using hrd'

/-- **C2.** For every dependency edge `(A, B)` of the dependency map, if the
`main.py` round scheduler dispatches `A` in round `i`, then `B` was recorded
`Sent` in a strictly earlier round `j < i`: an assertion enters the ready
set of a round only when every dependency is already a key of the
`successfully_sent` snapshot taken at the round's start, and that registry
starts empty. -/
theorem c2_dispatch_after_deps (deps : ARef → List ARef)
    (gen : ARef → String) (pub : ARef → Bool) (assertions : List ARef)
    (i : Nat) (rd : Round) (A B : ARef)
    (hrd : (mainRun deps gen pub assertions).1[i]? = some rd)
    (hA : A ∈ rd.dispatched) (hB : B ∈ deps A) :
    ∃ j rd', j < i ∧ (mainRun deps gen pub assertions).1[j]? = some rd' ∧
      B ∈ rd'.succeeded := by
  rcases mainRunAux_ordering deps gen pub (assertions.length + 1) assertions
      [] i rd A B hrd hA hB with h | h
  · simp [dget] at h
  · exact h

/-- **C2, witness.** A two-element chain: `B` is sent in round 0, `A`
(depending on `B`) is dispatched in round 1. -/
theorem c2_dispatch_after_deps_witness :
    ∃ j rd', j < 1 ∧
      (mainRun (fun a => if a = ARef.cls "A" then [ARef.cls "B"] else [])
        (fun _ => "expr") (fun _ => true)
        [ARef.cls "A", ARef.cls "B"]).1[j]? = some rd' ∧
      ARef.cls "B" ∈ rd'.succeeded :=
  c2_dispatch_after_deps
    (fun a => if a = ARef.cls "A" then [ARef.cls "B"] else [])
    (fun _ => "expr") (fun _ => true) [ARef.cls "A", ARef.cls "B"] 1
    ⟨[ARef.cls "A"], [ARef.cls "A"]⟩ (ARef.cls "A") (ARef.cls "B")
    (by rfl) (by decide) (by decide)

/-! ## Decimal rendering: agreement with `Nat.digits` and injectivity -/

theorem digitsAuxF_eq_digits :
    ∀ (fuel n : Nat), n ≤ fuel → digitsAuxF fuel n = Nat.digits 10 n := by
  intro fuel
  induction fuel with
  | zero =>
    intro n hn
    interval_cases n
    simp [digitsAuxF]
  | succ f ih =>
    intro n hn
    cases n with
    | zero => simp [digitsAuxF]
    | succ m =>
      rw [Nat.digits_def' (by norm_num) (Nat.succ_pos m)]
      show (m + 1) % 10 :: digitsAuxF f ((m + 1) / 10) = _
      rw [ih ((m + 1) / 10) (by omega)]

theorem natDigits_eq_digits (n : Nat) : natDigits n = Nat.digits 10 n :=
  digitsAuxF_eq_digits n n (Nat.le_refl n)

theorem digitChar_inj_lt :
    ∀ a < 10, ∀ b < 10, Nat.digitChar a = Nat.digitChar b → a = b := by decide

theorem digitChar_isDigit : ∀ d < 10, (Nat.digitChar d).isDigit = true := by
  decide

theorem map_digitChar_inj :
    ∀ (l1 l2 : List Nat), (∀ x ∈ l1, x < 10) → (∀ x ∈ l2, x < 10) →
      l1.map Nat.digitChar = l2.map Nat.digitChar → l1 = l2 := by
  intro l1
  induction l1 with
  | nil =>
    intro l2 _ _ h
    cases l2 with
    | nil => rfl
    | cons b bs => simp at h
  | cons a as ih =>
    intro l2 h1 h2 h
    cases l2 with
    | nil => simp at h
    | cons b bs =>
      simp only [List.map_cons, List.cons.injEq] at h
      have hab : a = b :=
        digitChar_inj_lt a (h1 a (by simp)) b (h2 b (by simp)) h.1
      rw [hab, ih bs (fun x hx => h1 x (by simp [hx]))
        (fun x hx => h2 x (by simp [hx])) h.2]

theorem natRepr_pos_inj {i j : Nat} (hi : 0 < i) (hj : 0 < j)
    (h : natRepr i = natRepr j) : i = j := by
  unfold natRepr at h
  rw [if_neg (Nat.pos_iff_ne_zero.mp hi), if_neg (Nat.pos_iff_ne_zero.mp hj)]
    at h
  have hdata := congrArg String.data h
  simp only at hdata
  rw [natDigits_eq_digits, natDigits_eq_digits, List.map_reverse,
    List.map_reverse] at hdata
  have hmap := List.reverse_inj.mp hdata
  have hdig := map_digitChar_inj _ _
    (fun x hx => Nat.digits_lt_base (by norm_num) hx)
    (fun x hx => Nat.digits_lt_base (by norm_num) hx) hmap
  calc i = Nat.ofDigits 10 (Nat.digits 10 i) := (Nat.ofDigits_digits 10 i).symm
    _ = Nat.ofDigits 10 (Nat.digits 10 j) := by rw [hdig]
    _ = j := Nat.ofDigits_digits 10 j

theorem natRepr_ne_nil (n : Nat) : (natRepr n).data ≠ [] := by
  unfold natRepr
  by_cases hn : n = 0
  · simp [hn]
  · rw [if_neg hn]
    simp only
    intro h
    rw [List.map_eq_nil_iff, List.reverse_eq_nil_iff, natDigits_eq_digits]
      at h
    exact Nat.digits_ne_nil_iff_ne_zero.mpr hn h

/-- Whether a string's final character is an ASCII digit — the discriminator
separating the collision-loop's suffixed names from every standard name. -/
def endsInDigit (s : String) : Bool :=
  match s.data.getLast? with
  | some c => c.isDigit
  | none => false

theorem natRepr_last_digit (n : Nat) (hn : 0 < n) :
    ∃ d, d < 10 ∧ (natRepr n).data.getLast? = some (Nat.digitChar d) := by
  refine ⟨n % 10, Nat.mod_lt n (by norm_num), ?_⟩
  unfold natRepr
  rw [if_neg (Nat.pos_iff_ne_zero.mp hn)]
  show ((natDigits n).reverse.map Nat.digitChar).getLast? = _
  rw [natDigits_eq_digits, List.map_reverse, List.getLast?_reverse,
    List.head?_map, Nat.digits_def' (by norm_num : (1 : Nat) < 10) hn]
  rfl

theorem endsInDigit_suffixed (x : String) (n : Nat) (hn : 0 < n) :
    endsInDigit (x ++ "_" ++ natRepr n) = true := by
  obtain ⟨d, hd, hlast⟩ := natRepr_last_digit n hn
  unfold endsInDigit
  rw [String.data_append, List.getLast?_append, hlast]
  show (Nat.digitChar d).isDigit = true
  exact digitChar_isDigit d hd

/-! ## The collision loop: candidates are fresh and predictable -/

theorem stringLength_pos_of_data_ne_nil {s : String} (h : s.data ≠ []) :
    0 < s.length := by
  show 0 < s.data.length
  exact List.length_pos.mpr h

theorem candidateName_zero_ne_succ (base : Option String) (j : Nat) :
    candidateName base 0 ≠ candidateName base (j + 1) := by
  intro h
  cases base with
  | none => simp [candidateName] at h
  | some s =>
    simp only [candidateName, pyFormat, Option.some.injEq] at h
    have hlen := congrArg String.length h
    rw [String.length_append, String.length_append] at hlen
    have h1 : 0 < (natRepr (j + 1)).length :=
      stringLength_pos_of_data_ne_nil (natRepr_ne_nil (j + 1))
    have h2 : ("_" : String).length = 1 := rfl
    omega

theorem candidateName_inj (base : Option String) :
    Function.Injective (candidateName base) := by
  intro i j h
  cases i with
  | zero =>
    cases j with
    | zero => rfl
    | succ j' => exact absurd h (candidateName_zero_ne_succ base j')
  | succ i' =>
    cases j with
    | zero => exact absurd h.symm (candidateName_zero_ne_succ base i')
    | succ j' =>
      simp only [candidateName, Option.some.injEq] at h
      have hdata := congrArg String.data h
      rw [String.data_append, String.data_append, String.data_append,
        String.data_append] at hdata
      rw [List.append_assoc, List.append_assoc] at hdata
      have htail := List.append_cancel_left hdata
      have hrepr := List.append_cancel_left htail
      have : natRepr (i' + 1) = natRepr (j' + 1) := by
        have h1 : natRepr (i' + 1) = ⟨(natRepr (i' + 1)).data⟩ := rfl
        have h2 : natRepr (j' + 1) = ⟨(natRepr (j' + 1)).data⟩ := rfl
        rw [h1, h2, hrepr]
      exact natRepr_pos_inj (Nat.succ_pos i') (Nat.succ_pos j') this

theorem freshNameAux_spec (base : Option String)
    (used : List (Option String)) :
    ∀ (fuel i : Nat),
      freshNameAux base used fuel i ∉ used ∨
      (∀ t < fuel, candidateName base (i + t) ∈ used) := by
  intro fuel
  induction fuel with
  | zero =>
    intro i
    exact Or.inr (fun t ht => absurd ht (Nat.not_lt_zero t))
  | succ f ih =>
    intro i
    by_cases hc : candidateName base i ∈ used
    · rcases ih (i + 1) with h | h
      · refine Or.inl ?_
        have heq : freshNameAux base used (f + 1) i =
            freshNameAux base used f (i + 1) := by
          simp only [freshNameAux, if_pos hc]
        rw [heq]
        exact h
      · refine Or.inr (fun t ht => ?_)
        cases t with
        | zero => simpa using hc
        | succ t' =>
          have hmem := h t' (by omega)
          have harith : i + 1 + t' = i + (t' + 1) := by omega
          rw [harith] at hmem
          exact hmem
    · refine Or.inl ?_
      have heq : freshNameAux base used (f + 1) i = candidateName base i := by
        simp only [freshNameAux, if_neg hc]
      rw [heq]
      exact hc

theorem freshName_not_mem (base : Option String)
    (used : List (Option String)) : freshName base used ∉ used := by
  rcases freshNameAux_spec base used (used.length + 1) 0 with h | h
  · exact h
  · exfalso
    have hsub : ∀ x ∈ (List.range (used.length + 1)).map (candidateName base),
        x ∈ used := by
      intro x hx
      rcases List.mem_map.mp hx with ⟨t, ht, rfl⟩
      simpa using h t (List.mem_range.mp ht)
    have hnd : ((List.range (used.length + 1)).map
        (candidateName base)).Nodup :=
      List.Nodup.map (candidateName_inj base) (List.nodup_range _)
    have h1 : ((List.range (used.length + 1)).map
        (candidateName base)).toFinset.card = used.length + 1 := by
      rw [List.toFinset_card_of_nodup hnd]
      simp
    have h2 : ((List.range (used.length + 1)).map
        (candidateName base)).toFinset ⊆ used.toFinset := by
      intro x hx
      exact List.mem_toFinset.mpr (hsub x (List.mem_toFinset.mp hx))
    have h3 := Finset.card_le_card h2
    have h4 := List.toFinset_card_le used
    omega

theorem freshNameAux_eq (base : Option String)
    (used : List (Option String)) :
    ∀ (fuel i k : Nat), i ≤ k → k - i ≤ fuel →
      (∀ j, i ≤ j → j < k → candidateName base j ∈ used) →
      candidateName base k ∉ used →
      freshNameAux base used fuel i = candidateName base k := by
  intro fuel
  induction fuel with
  | zero =>
    intro i k hik hk _ _
    have hik' : i = k := by omega
    subst hik'
    rfl
  | succ f ih =>
    intro i k hik hk hprev hnot
    by_cases hik' : i = k
    · subst hik'
      simp [freshNameAux, hnot]
    · have hilt : i < k := by omega
      have hi : candidateName base i ∈ used := hprev i (Nat.le_refl i) hilt
      simp only [freshNameAux, if_pos hi]
      exact ih (i + 1) k (by omega) (by omega)
        (fun j hj1 hj2 => hprev j (by omega) hj2) hnot

theorem freshName_eq (base : Option String) (used : List (Option String))
    (k : Nat) (hk : k ≤ used.length + 1)
    (hprev : ∀ j < k, candidateName base j ∈ used)
    (hnot : candidateName base k ∉ used) :
    freshName base used = candidateName base k :=
  freshNameAux_eq base used (used.length + 1) 0 k (Nat.zero_le k) (by omega)
    (fun j _ hj => hprev j hj) hnot

/-! ## C5: the predicate-name table is not injective, but the freshly
assigned names are -/

theorem dget_mem_values {α β : Type} [DecidableEq α] :
    ∀ {d : List (α × β)} {k : α} {v : β},
      dget d k = some v → v ∈ d.map (·.2) := by
  intro d
  induction d with
  | nil => intro k v h; cases h
  | cons e es ih =>
    intro k v h
    by_cases hek : e.1 = k
    · simp only [dget, if_pos hek, Option.some.injEq] at h
      simp [← h]
    · simp only [dget, if_neg hek] at h
      simp only [List.map_cons, List.mem_cons]
      exact Or.inr (ih h)

/-- The registry invariant of one `build_predicate_names` run: every stored
name is in `used_names`, the standard values stay in `used_names`, and two
distinct non-standard non-type predicates never store the same name. -/
def PNInv (std : List (PKey × Option String))
    (st : List (PKey × Option String) × List (Option String)) : Prop :=
  (∀ k v, dget st.1 k = some v → v ∈ st.2) ∧
  (∀ v ∈ std.map (·.2), v ∈ st.2) ∧
  (∀ p q vp vq, dget std (.uriK p) = none → dget std (.uriK q) = none →
    PKey.uriK p ∉ typePredicates → PKey.uriK q ∉ typePredicates → p ≠ q →
    dget st.1 (.uriK p) = some vp → dget st.1 (.uriK q) = some vq → vp ≠ vq)

theorem predNameStep_inv (std : List (PKey × Option String)) (m : ObjectMap)
    (hio : some "instance-of" ∈ std.map (·.2)) (r : String)
    (st : List (PKey × Option String) × List (Option String))
    (hinv : PNInv std st) : PNInv std (predNameStep m st r) := by
  obtain ⟨names, used⟩ := st
  obtain ⟨h1, h3, h2⟩ := hinv
  by_cases htp : PKey.uriK r ∈ typePredicates
  · -- names[pred] = "instance-of"
    have hstep : predNameStep m (names, used) r =
        (dset names (.uriK r) (some "instance-of"), used) := by
      simp [predNameStep, htp]
    rw [hstep]
    refine ⟨?_, h3, ?_⟩
    · intro k v hv
      by_cases hk : k = PKey.uriK r
      · subst hk
        rw [dget_dset_self] at hv
        rw [← Option.some.inj hv]
        exact h3 _ hio
      · rw [dget_dset_ne _ _ _ _ hk] at hv
        exact h1 k v hv
    · intro p q vp vq hps hqs hpt hqt hpq hvp hvq
      have hpr : PKey.uriK p ≠ PKey.uriK r := fun hh => hpt (hh ▸ htp)
      have hqr : PKey.uriK q ≠ PKey.uriK r := fun hh => hqt (hh ▸ htp)
      rw [dget_dset_ne _ _ _ _ hpr] at hvp
      rw [dget_dset_ne _ _ _ _ hqr] at hvq
      exact h2 p q vp vq hps hqs hpt hqt hpq hvp hvq
  · by_cases hknown : (dget names (.uriK r)).isSome
    · have hstep : predNameStep m (names, used) r = (names, used) := by
        simp [predNameStep, htp, hknown]
      rw [hstep]
      exact ⟨h1, h3, h2⟩
    · have hstep : predNameStep m (names, used) r =
          (dset names (.uriK r)
            (freshName (match dget m r with
              | some lbl => lbl
              | none => some (rdf_to_krl_name r)) used),
           used ++ [freshName (match dget m r with
              | some lbl => lbl
              | none => some (rdf_to_krl_name r)) used]) := by
        simp [predNameStep, htp, hknown]
      rw [hstep]
      set nm := freshName (match dget m r with
        | some lbl => lbl
        | none => some (rdf_to_krl_name r)) used with hnm
      have hfresh : nm ∉ used := freshName_not_mem _ used
      refine ⟨?_, ?_, ?_⟩
      · intro k v hv
        by_cases hk : k = PKey.uriK r
        · subst hk
          rw [dget_dset_self] at hv
          rw [← Option.some.inj hv]
          simp
        · rw [dget_dset_ne _ _ _ _ hk] at hv
          exact List.mem_append.mpr (Or.inl (h1 k v hv))
      · intro v hv
        exact List.mem_append.mpr (Or.inl (h3 v hv))
      · intro p q vp vq hps hqs hpt hqt hpq hvp hvq
        by_cases hpr : PKey.uriK p = PKey.uriK r
        · have hqr : PKey.uriK q ≠ PKey.uriK r := by
            intro hh
            exact hpq (PKey.uriK.inj (hpr.trans hh.symm))
          rw [hpr, dget_dset_self] at hvp
          rw [dget_dset_ne _ _ _ _ hqr] at hvq
          rw [← Option.some.inj hvp]
          intro hh
          exact hfresh (hh ▸ h1 _ vq hvq)
        · rw [dget_dset_ne _ _ _ _ hpr] at hvp
          by_cases hqr : PKey.uriK q = PKey.uriK r
          · rw [hqr, dget_dset_self] at hvq
            rw [← Option.some.inj hvq]
            intro hh
            exact hfresh (hh ▸ h1 _ vp hvp)
          · rw [dget_dset_ne _ _ _ _ hqr] at hvq
            exact h2 p q vp vq hps hqs hpt hqt hpq hvp hvq

theorem predNameFold_inv (std : List (PKey × Option String)) (m : ObjectMap)
    (hio : some "instance-of" ∈ std.map (·.2)) :
    ∀ (preds : List String)
      (st : List (PKey × Option String) × List (Option String)),
      PNInv std st → PNInv std (preds.foldl (predNameStep m) st) := by
  intro preds
  induction preds with
  | nil => intro st h; exact h
  | cons r preds ih =>
    intro st h
    exact ih _ (predNameStep_inv std m hio r st h)

/-- **C5 (amended).** Within one run, two *distinct non-standard, non-type*
predicates never receive the same name: the collision loop makes every
freshly assigned name distinct from everything in `used_names`, which
contains all previously stored names.  (Injectivity of the whole table fails
on the seed, see the counterexample.) -/
theorem c5_nonstandard_names_injective (std : List (PKey × Option String))
    (m : ObjectMap) (preds : List String)
    (hio : some "instance-of" ∈ std.map (·.2)) (p q : String)
    (vp vq : Option String)
    (hps : dget std (.uriK p) = none) (hqs : dget std (.uriK q) = none)
    (hpt : PKey.uriK p ∉ typePredicates) (hqt : PKey.uriK q ∉ typePredicates)
    (hpq : p ≠ q)
    (hvp : dget (buildPredicateNamesFrom std m preds) (.uriK p) = some vp)
    (hvq : dget (buildPredicateNamesFrom std m preds) (.uriK q) = some vq) :
    vp ≠ vq := by
  have hinit : PNInv std (std, std.map (·.2)) := by
    refine ⟨fun k v hv => dget_mem_values hv, fun v hv => hv, ?_⟩
    intro p q vp vq hps _ _ _ _ hvp _
    rw [hps] at hvp
    cases hvp
  have hfin := predNameFold_inv std m hio preds _ hinit
  exact hfin.2.2 p q vp vq hps hqs hpt hqt hpq hvp hvq

/-- **C5, counterexample.** The table `build_predicate_names` builds is not
injective: with `service/KMService.py`'s `STANDARD_PREDICATES` (the seed of
the service variants), `rdfs:label` and the OpenCyc concept id
`Mx4rwLSVCpwpEbGdrcN5Y29ycA` — two distinct keys of the built table — both
map to `"prettyString"` in any run (here: a run whose only graph predicate
is `rdf:type`); and even with `km_syntax.py`'s injectively-seeded table, a
graph containing the Cyc type predicate maps it and `rdf:type` — two
distinct predicates — both to `"instance-of"`. -/
theorem c5_counterexample :
    buildPredicateNamesFrom stdPredicatesSvc [] [rdfTypeURI] =
      stdPredicatesSvc ∧
    dget stdPredicatesSvc (.uriK rdfsLabelURI) = some (some "prettyString") ∧
    dget stdPredicatesSvc (.rawK "Mx4rwLSVCpwpEbGdrcN5Y29ycA") =
      some (some "prettyString") ∧
    PKey.uriK rdfsLabelURI ≠ PKey.rawK "Mx4rwLSVCpwpEbGdrcN5Y29ycA" ∧
    dget (buildPredicateNamesFrom stdPredicatesKm [] [cycQuotedIsaURI])
      (.uriK cycQuotedIsaURI) = some (some "instance-of") ∧
    dget (buildPredicateNamesFrom stdPredicatesKm [] [cycQuotedIsaURI])
      (.uriK rdfTypeURI) = some (some "instance-of") ∧
    PKey.uriK cycQuotedIsaURI ≠ PKey.uriK rdfTypeURI :=
  ⟨by rfl, by rfl, by rfl, by decide, by rfl, by rfl, by decide⟩

/-- **C5, witness of the amended claim.** Two predicates sharing the base
label `foo` receive the distinct names `foo` and `foo_1`. -/
theorem c5_nonstandard_names_injective_witness :
    (some "foo" : Option String) ≠ some "foo_1" :=
  c5_nonstandard_names_injective stdPredicatesKm
    [("http://ex.org/a", some "foo"), ("http://ex.org/b", some "foo")]
    ["http://ex.org/a", "http://ex.org/b"] (by decide)
    "http://ex.org/a" "http://ex.org/b" (some "foo") (some "foo_1")
    (by rfl) (by rfl) (by decide) (by decide) (by decide) (by rfl) (by rfl)

/-! ## C6: N predicates sharing one base label -/

theorem dget_append_of_none {α β : Type} [DecidableEq α] :
    ∀ {d1 : List (α × β)} (d2 : List (α × β)) {k : α},
      dget d1 k = none → dget (d1 ++ d2) k = dget d2 k := by
  intro d1
  induction d1 with
  | nil => intro d2 k _; rfl
  | cons e es ih =>
    intro d2 k h
    by_cases hek : e.1 = k
    · simp [dget, hek] at h
    · simp only [dget, if_neg hek] at h
      simpa [dget, hek] using ih d2 h

theorem dget_map_of_mem {α β : Type} [DecidableEq α] (key : Nat → α)
    (val : Nat → β) :
    ∀ (l : List Nat) (i : Nat), i ∈ l →
      (∀ j ∈ l, key j = key i → j = i) →
      dget (l.map (fun j => (key j, val j))) (key i) = some (val i) := by
  intro l
  induction l with
  | nil => intro i hi; cases hi
  | cons j l ih =>
    intro i hi hinj
    by_cases hk : key j = key i
    · have hji : j = i := hinj j (by simp) hk
      simp [dget, hk, hji]
    · have hij : i ∈ l := by
        rcases List.mem_cons.mp hi with h | h
        · exact absurd (congrArg key h.symm) hk
        · exact h
      simp only [List.map_cons, dget, if_neg hk]
      exact ih i hij (fun j' hj' => hinj j' (by simp [hj']))

theorem dget_map_of_not_mem {α β : Type} [DecidableEq α] (key : Nat → α)
    (val : Nat → β) :
    ∀ (l : List Nat) (x : α), (∀ j ∈ l, key j ≠ x) →
      dget (l.map (fun j => (key j, val j))) x = none := by
  intro l
  induction l with
  | nil => intro x _; rfl
  | cons j l ih =>
    intro x h
    have hj : key j ≠ x := h j (by simp)
    simp only [List.map_cons, dget, if_neg hj]
    exact ih x (fun j' hj' => h j' (by simp [hj']))

/-- The name the spec predicts for the `i`-th predicate sharing base label
`b`: unsuffixed for the first, `_i`-suffixed for the rest. -/
def nmC6 (b : String) (i : Nat) : Option String :=
  if i = 0 then some b else some (b ++ "_" ++ natRepr i)

theorem nmC6_eq_candidate (b : String) : ∀ i, nmC6 b i = candidateName (some b) i := by
  intro i
  cases i with
  | zero => rfl
  | succ i' => simp [nmC6, candidateName, pyFormat]

theorem nmC6_inj (b : String) {i j : Nat} (h : nmC6 b i = nmC6 b j) :
    i = j := by
  rw [nmC6_eq_candidate, nmC6_eq_candidate] at h
  exact candidateName_inj (some b) h

theorem nmC6_not_std (b : String)
    (hb : some b ∉ stdPredicatesKm.map (·.2)) :
    ∀ k, nmC6 b k ∉ stdPredicatesKm.map (·.2) := by
  intro k hmem
  cases k with
  | zero => exact hb (by simpa [nmC6] using hmem)
  | succ k' =>
    have hdig := endsInDigit_suffixed b (k' + 1) (Nat.succ_pos k')
    simp only [nmC6, Nat.succ_ne_zero, if_neg, stdPredicatesKm,
      List.map_cons, List.map_nil, List.mem_cons, List.not_mem_nil,
      or_false] at hmem
    rcases hmem with h | h | h | h <;>
      (rw [Option.some.inj h] at hdig; exact absurd hdig (by decide))

/-- The object map of the C6 scenario: every one of the `N` predicates
carries the same external label `b`. -/
def c6Map (u : Nat → String) (N : Nat) (b : String) : ObjectMap :=
  (List.range N).map (fun i => (u i, some b))

/-- The graph predicates of the C6 scenario, in first-seen order. -/
def c6Preds (u : Nat → String) (N : Nat) : List String :=
  (List.range N).map u

theorem c6_fold (N : Nat) (u : Nat → String) (b : String)
    (huinj : ∀ i j, i < N → j < N → u i = u j → i = j)
    (hstd : ∀ i, i < N → dget stdPredicatesKm (.uriK (u i)) = none)
    (htp : ∀ i, i < N → PKey.uriK (u i) ∉ typePredicates)
    (hb : some b ∉ stdPredicatesKm.map (·.2)) :
    ∀ k, k ≤ N →
      ((List.range k).map u).foldl (predNameStep (c6Map u N b))
        (stdPredicatesKm, stdPredicatesKm.map (·.2)) =
      (stdPredicatesKm ++
        (List.range k).map (fun j => (PKey.uriK (u j), nmC6 b j)),
       stdPredicatesKm.map (·.2) ++ (List.range k).map (nmC6 b)) := by
  intro k
  induction k with
  | zero => intro _; simp
  | succ k ih =>
    intro hkN
    have hk : k < N := hkN
    rw [List.range_succ, List.map_append, List.foldl_append,
      ih (Nat.le_of_lt hk)]
    simp only [List.map_cons, List.map_nil, List.foldl_cons, List.foldl_nil]
    -- evaluate one step of the loop on predicate `u k`
    have htpk : PKey.uriK (u k) ∉ typePredicates := htp k hk
    have hgetmapped :
        dget ((List.range k).map (fun j => (PKey.uriK (u j), nmC6 b j)))
          (PKey.uriK (u k)) = none := by
      apply dget_map_of_not_mem
      intro j hj hne
      have hjk : j = k :=
        huinj j k (Nat.lt_of_lt_of_le (List.mem_range.mp hj) (Nat.le_of_lt hk))
          hk (PKey.uriK.inj hne)
      rw [hjk] at hj
      exact absurd (List.mem_range.mp hj) (Nat.lt_irrefl k)
    have hgetnames :
        dget (stdPredicatesKm ++
          (List.range k).map (fun j => (PKey.uriK (u j), nmC6 b j)))
          (PKey.uriK (u k)) = none := by
      rw [dget_append_of_none _ (hstd k hk)]
      exact hgetmapped
    have hbase : dget (c6Map u N b) (u k) = some (some b) := by
      unfold c6Map
      exact dget_map_of_mem u (fun _ => some b) (List.range N) k
        (List.mem_range.mpr hk)
        (fun j hj hne => huinj j k (List.mem_range.mp hj) hk hne)
    have hused_len :
        (stdPredicatesKm.map (·.2) ++ (List.range k).map (nmC6 b)).length =
          4 + k := by
      simp [stdPredicatesKm]
      omega
    have hfreshk : freshName (some b)
        (stdPredicatesKm.map (·.2) ++ (List.range k).map (nmC6 b)) =
        nmC6 b k := by
      rw [nmC6_eq_candidate]
      apply freshName_eq
      · rw [hused_len]
        omega
      · intro j hj
        rw [← nmC6_eq_candidate]
        exact List.mem_append.mpr (Or.inr
          (List.mem_map.mpr ⟨j, List.mem_range.mpr hj, rfl⟩))
      · rw [← nmC6_eq_candidate]
        intro hmem
        rcases List.mem_append.mp hmem with h | h
        · exact nmC6_not_std b hb k h
        · rcases List.mem_map.mp h with ⟨j, hj, hje⟩
          have hjk2 : j = k := nmC6_inj b hje
          rw [hjk2] at hj
          exact absurd (List.mem_range.mp hj) (Nat.lt_irrefl k)
    have hstep : predNameStep (c6Map u N b)
        (stdPredicatesKm ++
          (List.range k).map (fun j => (PKey.uriK (u j), nmC6 b j)),
         stdPredicatesKm.map (·.2) ++ (List.range k).map (nmC6 b))
        (u k) =
        (stdPredicatesKm ++
          (List.range (k + 1)).map (fun j => (PKey.uriK (u j), nmC6 b j)),
         stdPredicatesKm.map (·.2) ++ (List.range (k + 1)).map (nmC6 b)) := by
      unfold predNameStep
      rw [if_neg htpk]
      simp only [hgetnames, Option.isSome_none, Bool.false_eq_true, if_false]
      rw [hbase]
      simp only [hfreshk]
      rw [dset_of_absent _ (dget_none_forall hgetnames)]
      rw [List.range_succ, List.map_append, List.map_append]
      simp [List.append_assoc]
    rw [hstep, List.range_succ]

/-- **C6.** For `N` distinct non-standard, non-type predicates resolving to
the same base label `b` (no other predicate in the run, and `b` not a
standard name — no other predicate uses it), `build_predicate_names`
assigns pairwise-distinct names in first-seen order: the first predicate
gets the unsuffixed `b`, the `i`-th gets `b_i`. -/
theorem c6_shared_label_suffixes (N : Nat) (u : Nat → String) (b : String)
    (huinj : ∀ i j, i < N → j < N → u i = u j → i = j)
    (hstd : ∀ i, i < N → dget stdPredicatesKm (.uriK (u i)) = none)
    (htp : ∀ i, i < N → PKey.uriK (u i) ∉ typePredicates)
    (hb : some b ∉ stdPredicatesKm.map (·.2)) :
    ∀ i, i < N →
      dget (buildPredicateNamesFrom stdPredicatesKm (c6Map u N b)
        (c6Preds u N)) (PKey.uriK (u i)) =
      some (if i = 0 then some b else some (b ++ "_" ++ natRepr i)) := by
  intro i hi
  unfold buildPredicateNamesFrom c6Preds
  rw [c6_fold N u b huinj hstd htp hb N (Nat.le_refl N)]
  show dget (stdPredicatesKm ++
    (List.range N).map (fun j => (PKey.uriK (u j), nmC6 b j)))
    (PKey.uriK (u i)) = _
  rw [dget_append_of_none _ (hstd i hi)]
  rw [dget_map_of_mem (fun j => PKey.uriK (u j)) (nmC6 b) (List.range N) i
    (List.mem_range.mpr hi)
    (fun j hj hne => huinj j i (List.mem_range.mp hj) hi (PKey.uriK.inj hne))]
  rfl

/-- **C6, witness.** Three predicates labelled `foo`: the second receives
`foo_1`. -/
theorem c6_shared_label_suffixes_witness :
    dget (buildPredicateNamesFrom stdPredicatesKm
        (c6Map (fun i => "p" ++ natRepr i) 3 "foo")
        (c6Preds (fun i => "p" ++ natRepr i) 3))
      (PKey.uriK ("p" ++ natRepr 1)) = some (some ("foo" ++ "_" ++ natRepr 1)) := by
  have h := c6_shared_label_suffixes 3 (fun i => "p" ++ natRepr i) "foo"
    (by
      intro i j hi hj hu
      interval_cases i <;> interval_cases j <;>
        first
        | rfl
        | exact absurd hu (by decide))
    (by decide) (by decide) (by decide) 1 (by decide)
  simpa using h

end OwlToKm
